import Mathlib

/-!
Verification development for the `timbrature-pa` timesheet tracker.

The JavaScript sources are shallowly embedded below.  The original code uses
Italian entry-type names: `entrata` = clock-in, `uscita` = clock-out,
`smart` = remote work, `assente` = absence.  Strings are modelled as Lean
`String`s, JS `null`/`undefined` as `Option`, decimal numbers for `hours`
as `ℚ`, and integer minute counts as `ℕ`/`ℤ`.  Impure fields of the source
that no modelled operation ever reads (`id`, `createdAt`, generated from
`Date.now()`/`Math.random()`) are omitted from the entry record.
-/

/-- A character is an ASCII decimal digit (used to transcribe the regexes of
`Validators.js` and `DateUtils.js`). -/
def isDigitCh (c : Char) : Bool :=
  ('0' ≤ c) && (c ≤ '9')

/-- Numeric value of an ASCII digit character. -/
def digitVal (c : Char) : ℕ :=
  c.toNat - 48

/-- ASCII digit character of a value below ten. -/
def digitChar10 (n : ℕ) : Char :=
  Char.ofNat (48 + n)

/-- JS `Number(str)` restricted to strings of decimal digits, as produced by
splitting date keys: a list of digit characters yields its decimal value, the
empty string yields 0 (as `Number("")` does in JS), anything containing a
non-digit yields `none` (JS `NaN`). -/
def digitsToNat? (l : List Char) : Option ℕ :=
  if l.all isDigitCh then
    some (l.foldl (fun a c => 10 * a + digitVal c) 0)
  else
    none

/-- Splits a character list on `'-'`, mirroring JS `str.split('-')`. -/
def splitOnDashAux : List Char → List Char → List (List Char)
  | [], acc => [acc.reverse]
  | c :: cs, acc =>
    if c = '-' then acc.reverse :: splitOnDashAux cs [] else splitOnDashAux cs (c :: acc)

/-- JS `str.split('-')` on the underlying characters. -/
def splitOnDash (l : List Char) : List (List Char) :=
  splitOnDashAux l []

/-- Fuel-driven decimal digit expansion, most significant digit first.  The
fuel argument only makes the recursion structural; any fuel above the number
itself yields the same digits. -/
def natDigitsAux : ℕ → ℕ → List ℕ
  | 0, _ => []
  | fuel + 1, n => if n < 10 then [n] else natDigitsAux fuel (n / 10) ++ [n % 10]

/-- Decimal digits of a natural number, most significant first. -/
def natDigitsM (n : ℕ) : List ℕ :=
  natDigitsAux (n + 1) n

/-- Decimal rendering of a natural number, as JS template interpolation of a
number prints it. -/
def natToString (n : ℕ) : String :=
  String.mk ((natDigitsM n).map digitChar10)

/-- JS `String.prototype.padStart(2, '0')`. -/
def padStart2 (s : String) : String :=
  String.mk (List.replicate (2 - s.toList.length) '0' ++ s.toList)

/- ### Validators.js -/

/-- Source `Validators.VALID_ENTRY_TYPES`. -/
def VALID_ENTRY_TYPES : List String :=
  [("entrata"), ("uscita"), ("smart"), ("assente")]

/-- Source `Validators.TIME_REQUIRED_TYPES`. -/
def TIME_REQUIRED_TYPES : List String :=
  [("entrata"), ("uscita")]

/-- Source `Validators.SPECIAL_TYPES`. -/
def SPECIAL_TYPES : List String :=
  [("smart"), ("assente")]

/-- Source `Validators.requiresTime`. -/
def requiresTime (t : String) : Bool :=
  TIME_REQUIRED_TYPES.contains t

/-- Source `Validators.isSpecialType`. -/
def isSpecialType (t : String) : Bool :=
  SPECIAL_TYPES.contains t

/-- Source `Validators.validateTime` reduced to its boolean outcome: the string must
match `^([0-1]?[0-9]|2[0-3]):([0-5][0-9])$` (hour 0–23 with optional leading
zero, minute exactly two digits 00–59). -/
def validateTimeB (s : String) : Bool :=
  match s.toList with
  | [h, colon, m1, m2] =>
    (colon == ':') && isDigitCh h && ('0' ≤ m1 && m1 ≤ '5') && isDigitCh m2
  | [h1, h2, colon, m1, m2] =>
    (colon == ':') &&
    ((('0' ≤ h1 && h1 ≤ '1') && isDigitCh h2) || ((h1 == '2') && ('0' ≤ h2 && h2 ≤ '3'))) &&
    ('0' ≤ m1 && m1 ≤ '5') && isDigitCh m2
  | _ => false

/-- Source `Validators.parseTimeToMinutes`: validates, then `split(':')` and
`hours * 60 + minutes`.  The split/`Number` step is fused with the character
pattern that the already-checked format guarantees. -/
def parseTimeToMinutes (s : String) : Option ℕ :=
  if validateTimeB s then
    match s.toList with
    | [h, _, m1, m2] => some (digitVal h * 60 + (10 * digitVal m1 + digitVal m2))
    | [h1, h2, _, m1, m2] =>
      some ((10 * digitVal h1 + digitVal h2) * 60 + (10 * digitVal m1 + digitVal m2))
    | _ => none
  else none

/-- Source `parseTimeToMinutes` applied to a possibly-`null` time, as the calculator
does (`parseTimeToMinutes(null)` returns `null`). -/
def parseTimeOpt (o : Option String) : Option ℕ :=
  o.bind parseTimeToMinutes

/-- Source `Validators.normalizeTime`: `null` for invalid input, otherwise the time
with the hour zero-padded to two digits. -/
def normalizeTime (o : Option String) : Option String :=
  match o with
  | none => none
  | some s =>
    if validateTimeB s then
      match s.toList with
      | [h, colon, m1, m2] => some (String.mk ['0', h, colon, m1, m2])
      | l => some (String.mk l)
    else none

/-- Source `Validators.minutesToTime`: `HH:MM` of the absolute value, `-` prefix for
negative input. -/
def minutesToTime (m : ℤ) : String :=
  (if m < 0 then String.mk ['-'] else String.mk []) ++
    padStart2 (natToString (m.natAbs / 60)) ++ String.mk [':'] ++
    padStart2 (natToString (m.natAbs % 60))

/- ### DateUtils.js -/

/-- Days since 1970-01-01 of a civil date with the month already normalised to
1–12 (standard days-from-civil computation, floor semantics). -/
def daysFromCivil (y m d : ℤ) : ℤ :=
  let y2 : ℤ := if m ≤ 2 then y - 1 else y
  let era : ℤ := Int.fdiv y2 400
  let yoe : ℤ := y2 - era * 400
  let mp : ℤ := Int.emod (m + 9) 12
  let doy : ℤ := Int.fdiv (153 * mp + 2) 5 + d - 1
  let doe : ℤ := yoe * 365 + Int.fdiv yoe 4 - Int.fdiv yoe 100 + doy
  era * 146097 + doe - 719468

/-- Weekday of JS `new Date(year, month-1, day).getDay()` (0 = Sunday …
6 = Saturday).  The JS constructor normalises an out-of-range month by
rolling into adjacent years, and maps years 0–99 to 1900–1999; both are
reproduced here.  The day is used linearly, matching JS day roll-over. -/
def jsDayOfWeek (y m d : ℤ) : ℤ :=
  let y1 : ℤ := if 0 ≤ y && y ≤ 99 then 1900 + y else y
  let ym : ℤ := y1 + Int.fdiv (m - 1) 12
  let mm : ℤ := Int.emod (m - 1) 12 + 1
  Int.emod (daysFromCivil ym mm d + 4) 7

/-- Source `DateUtils.parseDateISO` composed with reading calendar fields: splits on
`-`, converts the first three components with `Number`, like the JS
destructuring `const [year, month, day] = dateStr.split('-').map(Number)`.
Strings that would produce a `NaN` component (hence an Invalid Date in JS)
yield `none`. -/
def parseDateISO (s : String) : Option (ℕ × ℕ × ℕ) :=
  match splitOnDash s.toList with
  | a :: b :: c :: _ =>
    match digitsToNat? a, digitsToNat? b, digitsToNat? c with
    | some y, some m, some d => some (y, m, d)
    | _, _, _ => none
  | _ => none

/-- Source `DateUtils.isFriday` on a date-key string: parse, then `getDay() === 5`.
An unparseable string gives a `NaN` weekday in JS, never equal to 5. -/
def isFriday (s : String) : Bool :=
  match parseDateISO s with
  | some (y, m, d) => jsDayOfWeek (y : ℤ) (m : ℤ) (d : ℤ) == 5
  | none => false

/-- Source `DateUtils.getWeekKey(year, week)`: template string
`year ++ "-W" ++ String(week).padStart(2, '0')`. -/
def getWeekKey (year week : ℕ) : String :=
  natToString year ++ String.mk ['-', 'W'] ++ padStart2 (natToString week)

/-- Source `DateUtils.parseWeekKey`: matches `^(\d{4})-W(\d{2})$` and returns the two
captured numbers; a non-matching string throws (modelled as `none`). -/
def parseWeekKey (s : String) : Option (ℕ × ℕ) :=
  match s.toList with
  | [a, b, c, d, dash, w, e, f] =>
    if isDigitCh a && isDigitCh b && isDigitCh c && isDigitCh d &&
        (dash == '-') && (w == 'W') && isDigitCh e && isDigitCh f then
      some (1000 * digitVal a + 100 * digitVal b + 10 * digitVal c + digitVal d,
            10 * digitVal e + digitVal f)
    else none
  | _ => none

/-- The regex `^\d{4}-W\d{2}$` of the specification, transcribed positionally
(length eight, four digits, a dash, a `W`, two digits). -/
def weekKeyMatches (s : String) : Bool :=
  let l := s.toList
  (l.length == 8) && ((l.take 4).all isDigitCh) &&
    (l.getD 4 ' ' == '-') && (l.getD 5 ' ' == 'W') &&
    isDigitCh (l.getD 6 ' ') && isDigitCh (l.getD 7 ' ')

/- ### TimeEntry.js -/

/-- Source `TimeEntry.SMART_HOURS.DEFAULT` (Monday–Thursday remote-work hours). -/
def SMART_HOURS_DEFAULT : ℚ := 15 / 2

/-- Source `TimeEntry.SMART_HOURS.FRIDAY`. -/
def SMART_HOURS_FRIDAY : ℚ := 6

/-- Source `TimeEntry.ABSENT_HOURS`. -/
def ABSENT_HOURS : ℚ := 0

/-- A `TimeEntry` as stored in memory.  `time` and `hours` are `null`able; the
impure `id` and `createdAt` fields are never read by any modelled operation
and are omitted. -/
structure TimeEntry where
  type : String
  time : Option String
  hours : Option ℚ
deriving Repr, DecidableEq

/-- Source `TimeEntry.getDefaultHours` as invoked from the constructor, where the
`isFriday` parameter takes its default `false`. -/
def getDefaultHours (t : String) : ℚ :=
  if t == ("smart") then SMART_HOURS_DEFAULT
  else if t == ("assente") then ABSENT_HOURS
  else 0

/-- The raw data handed to the `TimeEntry` constructor. -/
structure EntryData where
  type : String
  time : Option String := none
  hours : Option ℚ := none
deriving Repr, DecidableEq

/-- The `TimeEntry` constructor: `time` is the normalised input when the type
requires a time and `null` otherwise; `hours` is the supplied value or the
type default when the type is special and `null` otherwise. -/
def TimeEntry.ofData (d : EntryData) : TimeEntry :=
  { type := d.type
    time := if requiresTime d.type then normalizeTime d.time else none
    hours := if isSpecialType d.type then some (d.hours.getD (getDefaultHours d.type)) else none }

/-- A partial update object; `none` in the outer layer means the field is
absent (`undefined`), so the corresponding `if (updates.x !== undefined)`
guard is skipped. -/
structure EntryUpdates where
  type : Option String := none
  time : Option String := none
  hours : Option ℚ := none
deriving Repr, DecidableEq

/-- Source `TimeEntry.update`: the type is overwritten when supplied; `time` is
re-normalised only when supplied and the (possibly new) type requires a time;
`hours` is overwritten only when supplied and the type is special.  Fields
made irrelevant by a type change are left untouched. -/
def TimeEntry.update (e : TimeEntry) (u : EntryUpdates) : TimeEntry :=
  let t := u.type.getD e.type
  let e1 : TimeEntry := { e with type := t }
  let e2 : TimeEntry :=
    match u.time with
    | some tv => if requiresTime t then { e1 with time := normalizeTime (some tv) } else e1
    | none => e1
  match u.hours with
  | some hv => if isSpecialType t then { e2 with hours := some hv } else e2
  | none => e2

/-- The serialized form of an entry: `type` always; `time` present (possibly
`null`) exactly when the type requires a time; `hours` present exactly when
the field is non-`null`.  The outer `Option` on `time` is field presence. -/
structure EntryJSON where
  type : String
  time : Option (Option String)
  hours : Option ℚ
deriving Repr, DecidableEq

/-- Source `TimeEntry.toJSON`. -/
def TimeEntry.toJSON (e : TimeEntry) : EntryJSON :=
  { type := e.type
    time := if requiresTime e.type then some e.time else none
    hours := e.hours }

/- ### TimeCalculator.js -/

/-- Source `CONFIG.PAUSE_MINUTES`. -/
def PAUSE_MINUTES : ℕ := 30

/-- Source `CONFIG.PAUSE_THRESHOLD_HOURS`. -/
def PAUSE_THRESHOLD_HOURS : ℚ := 6

/-- Source `CONFIG.WEEKLY_TARGET_MINUTES`. -/
def WEEKLY_TARGET_MINUTES : ℕ := 36 * 60

/-- JS `Math.round` on a rational (round half away from zero is half up for
the values at hand; JS rounds half toward positive infinity). -/
def jsRound (q : ℚ) : ℤ :=
  ⌊q + 1 / 2⌋

/-- Source `TimeCalculator.calculatePairMinutes`: filter the clock-ins and clock-outs
in recorded order, pair them positionally up to the shorter count (the `zip`
is the `for (let i = 0; i < pairs; i++)` loop), and add each difference that
is parseable on both sides and strictly positive.  `hasIncomplete` flags more
clock-ins than clock-outs. -/
def calculatePairMinutes (entries : List TimeEntry) : ℕ × Bool :=
  let entrate := (entries.filter (fun e => e.type == ("entrata"))).map (fun e => e.time)
  let uscite := (entries.filter (fun e => e.type == ("uscita"))).map (fun e => e.time)
  let hasIncomplete := entrate.length > uscite.length
  let workedMinutes :=
    ((entrate.zip uscite).map (fun p =>
      match parseTimeOpt p.1, parseTimeOpt p.2 with
      | some a, some b => if a < b then b - a else 0
      | _, _ => 0)).sum
  (workedMinutes, hasIncomplete)

/-- Source `TimeCalculator.shouldApplyPause`: never on a Friday; otherwise exactly
when `workedMinutes / 60 > 6` (real division, as in JS). -/
def shouldApplyPause (workedMinutes : ℕ) (dateKey : String) : Bool :=
  if isFriday dateKey then false
  else decide ((workedMinutes : ℚ) / 60 > PAUSE_THRESHOLD_HOURS)

/-- The real-division pause threshold is equivalent to the integer bound
`360 < workedMinutes`; JS compares `workedMinutes / 60 > 6` with real
division. -/
theorem shouldApplyPause_eq (w : ℕ) (dk : String) :
    shouldApplyPause w dk = (!isFriday dk && decide (360 < w)) := by
  unfold shouldApplyPause
  cases h : isFriday dk with
  | true => simp
  | false =>
    simp only [if_false, Bool.not_false, Bool.true_and, Bool.false_eq_true]
    rw [decide_eq_decide]
    rw [gt_iff_lt, PAUSE_THRESHOLD_HOURS, lt_div_iff₀ (by norm_num : (0:ℚ) < 60)]
    constructor
    · intro hq; exact_mod_cast hq
    · intro hq; exact_mod_cast hq

/-- Result of `calculateDayHours`.  The empty-day and special-day returns of
the source carry no `grossMinutes`/`pauseApplied` fields, hence the
`Option`s. -/
structure DayHoursResult where
  minutes : ℤ
  formatted : String
  hasIncomplete : Bool
  grossMinutes : Option ℕ := none
  pauseApplied : Option Bool := none
deriving Repr, DecidableEq

/-- The clock-in/clock-out branch of `calculateDayHours`. -/
def calculateDayHoursPairs (entries : List TimeEntry) (dateKey : String) : DayHoursResult :=
  let r := calculatePairMinutes entries
  let pauseMinutes : ℕ := if shouldApplyPause r.1 dateKey then PAUSE_MINUTES else 0
  let netMinutes : ℤ := max 0 ((r.1 : ℤ) - (pauseMinutes : ℤ))
  { minutes := netMinutes
    formatted := minutesToTime netMinutes
    hasIncomplete := r.2
    grossMinutes := some r.1
    pauseApplied := some (decide (pauseMinutes > 0)) }

/-- Source `TimeCalculator.calculateDayHours`: empty list → zero; a single special
entry → `round(hours·60)` with no break logic; otherwise pair the clock
events and subtract the automatic break when applicable. -/
def calculateDayHours (entries : List TimeEntry) (dateKey : String) : DayHoursResult :=
  match entries with
  | [] => { minutes := 0, formatted := String.mk ['0', '0', ':', '0', '0'], hasIncomplete := false }
  | [e] =>
    if isSpecialType e.type then
      let hours := e.hours.getD 0
      let m := jsRound (hours * 60)
      { minutes := m, formatted := minutesToTime m, hasIncomplete := false }
    else calculateDayHoursPairs [e] dateKey
  | _ => calculateDayHoursPairs entries dateKey

/- ### WeekData.js

The state of a `WeekData` is its `entries` map.  A JS `Map` keeps keys in
insertion order and `set` on an existing key updates in place, which an
association list with first-match lookup and in-place replacement reproduces.
The `year`/`week` fields only seed the five weekday keys with empty entry
lists at construction; they play no role in the mutation logic the claims are
about, so the operations below act on an arbitrary map state. -/

/-- The `entries` map of a `WeekData`. -/
def EMap : Type := List (String × List TimeEntry)

instance : DecidableEq EMap := by
  unfold EMap
  infer_instance

/-- JS `Map.prototype.get` (first matching key). -/
def emGet (m : EMap) (k : String) : Option (List TimeEntry) :=
  match m with
  | [] => none
  | p :: ps => if p.1 == k then some p.2 else emGet ps k

/-- JS `Map.prototype.set`: update the existing binding in place, otherwise
append a new one. -/
def emSet (m : EMap) (k : String) (v : List TimeEntry) : EMap :=
  match m with
  | [] => [(k, v)]
  | p :: ps => if p.1 == k then (k, v) :: ps else p :: emSet ps k v

/-- Source `WeekData.getEntriesForDate`: the day's list, or `[]` for a missing key. -/
def getEntriesForDate (m : EMap) (dateKey : String) : List TimeEntry :=
  (emGet m dateKey).getD []

/-- Source `WeekData.clearDay`: reset the day to `[]`, only if the key exists. -/
def clearDay (m : EMap) (dateKey : String) : EMap :=
  if (emGet m dateKey).isSome then emSet m dateKey [] else m

/-- The hours override inside `WeekData.addEntry`: a `smart` entry on a
Friday has its hours forced to the Friday default before being stored. -/
def entryToAdd (dateKey : String) (e : TimeEntry) : TimeEntry :=
  if isSpecialType e.type && (e.type == ("smart") && isFriday dateKey) then
    { e with hours := some SMART_HOURS_FRIDAY }
  else e

/-- Source `WeekData.addEntry` acting on an already-constructed `TimeEntry` (the
source wraps raw data in the constructor first; `loadFromJSON` below does the
same).  A special entry first clears the day, and a `smart` entry on a Friday
has its hours forced to the Friday default (`entryToAdd`); then the day's
array is created on demand and the entry pushed. -/
def addEntry (m : EMap) (dateKey : String) (e : TimeEntry) : EMap :=
  let e1 : TimeEntry := entryToAdd dateKey e
  let m1 : EMap := if isSpecialType e.type then clearDay m dateKey else m
  let m2 : EMap := if (emGet m1 dateKey).isSome then m1 else emSet m1 dateKey []
  emSet m2 dateKey (getEntriesForDate m2 dateKey ++ [e1])

/-- Source `WeekData.updateEntry`: bounds-checked lookup (`null` on failure); when
the update turns a non-special entry into a special one the day is cleared
down to the updated entry alone, otherwise the entry is updated in place. -/
def updateEntry (m : EMap) (dateKey : String) (index : ℕ) (u : EntryUpdates) :
    EMap × Option TimeEntry :=
  match emGet m dateKey with
  | none => (m, none)
  | some l =>
    if h : index < l.length then
      let e := l.get ⟨index, h⟩
      if (match u.type with
          | some t => isSpecialType t
          | none => false) && !(isSpecialType e.type) then
        let ue := e.update u
        let m1 := clearDay m dateKey
        (emSet m1 dateKey (getEntriesForDate m1 dateKey ++ [ue]), some ue)
      else
        let ue := e.update u
        (emSet m dateKey (l.set index ue), some ue)
    else (m, none)

/-- Source `WeekData.deleteEntry`: bounds-checked splice. -/
def deleteEntry (m : EMap) (dateKey : String) (index : ℕ) :
    EMap × Option TimeEntry :=
  match emGet m dateKey with
  | none => (m, none)
  | some l =>
    if h : index < l.length then
      (emSet m dateKey (l.eraseIdx index), some (l.get ⟨index, h⟩))
    else (m, none)

/-- Source `WeekData.isSpecialDay`: exactly one entry and it is special. -/
def isSpecialDay (m : EMap) (dateKey : String) : Bool :=
  match emGet m dateKey with
  | none => false
  | some l => (l.length == 1) && isSpecialType ((l.headD { type := String.mk [], time := none, hours := none }).type)

/-- Stable insertion into a list sorted by a boolean comparator. -/
def orderedInsert (le : α → α → Bool) (x : α) : List α → List α
  | [] => [x]
  | y :: ys => if le x y then x :: y :: ys else y :: orderedInsert le x ys

/-- Stable insertion sort; models JS `Array.prototype.sort` with a total
comparator (JS sorts are stable). -/
def insertionSort (le : α → α → Bool) (l : List α) : List α :=
  l.foldr (orderedInsert le) []

/-- Source `WeekData.getWorkDates`: the map's keys, sorted (JS default string sort,
lexicographic). -/
def getWorkDates (m : EMap) : List String :=
  insertionSort (fun a b => a ≤ b) (m.map (fun p => p.1))

/-- Source `WeekData.toJSON`: the days with at least one entry, each serialized. -/
def weekToJSON (m : EMap) : List (String × List EntryJSON) :=
  (m.filter (fun p => !p.2.isEmpty)).map (fun p => (p.1, p.2.map TimeEntry.toJSON))

/-- Source `WeekData.loadFromJSON`: replay `addEntry` for every serialized entry of
every date key of the payload, constructing each entry from its raw data. -/
def loadFromJSON (m : EMap) (data : List (String × List EntryData)) : EMap :=
  data.foldl (fun acc p => p.2.foldl (fun acc2 ed => addEntry acc2 p.1 (TimeEntry.ofData ed)) acc) m

/-- The per-day exclusivity invariant of the specification: zero entries, a
single special entry, or only clock entries. -/
def dayOkB (l : List TimeEntry) : Bool :=
  l.isEmpty ||
    ((l.length == 1) && isSpecialType ((l.headD { type := String.mk [], time := none, hours := none }).type)) ||
    l.all (fun e => (e.type == ("entrata")) || (e.type == ("uscita")))

/-- The whole-map invariant: every date key satisfies `dayOkB` (absent keys
give the empty list and hold trivially). -/
def WeekDataInvariant (m : EMap) : Prop :=
  ∀ dk : String, dayOkB (getEntriesForDate m dk) = true

/- ### StorageManager.js -/

/-- Key lookup in a stored aggregate, modelled as an association list with
unique keys in insertion order (a JSON object).  `obj[key]` truthiness equals
key presence because week payloads are JSON objects, which are always
truthy. -/
def aggGet (m : List (String × α)) (k : String) : Option α :=
  match m with
  | [] => none
  | p :: ps => if p.1 == k then some p.2 else aggGet ps k

/-- Source `StorageManager.importData` in merge mode: walk the payload keys in
order; a key already present counts as `existing` and is skipped, an absent
key is added to the aggregate and counts as `imported`.  Returns the final
aggregate with both counters. -/
def importDataMerge (current : List (String × α)) :
    List (String × α) → List (String × α) × ℕ × ℕ
  | [] => (current, 0, 0)
  | p :: ps =>
    if (aggGet current p.1).isSome then
      let r := importDataMerge current ps
      (r.1, r.2.1, r.2.2 + 1)
    else
      let r := importDataMerge (current ++ [p]) ps
      (r.1, r.2.1 + 1, r.2.2)

/- ### IndexedDBAdapter.js (backup subsystem) -/

/-- A record of the `backups` object store: auto-increment `id`, creation
`timestamp`, and the snapshotted aggregate. -/
structure BackupRecord (α : Type) where
  id : ℕ
  timestamp : ℤ
  data : α
deriving Repr, DecidableEq

/-- The JS sort `backups.sort((a, b) => a.timestamp - b.timestamp)` (stable,
ascending by timestamp). -/
def sortByTimestamp (l : List (BackupRecord α)) : List (BackupRecord α) :=
  insertionSort (fun a b => a.timestamp ≤ b.timestamp) l

/-- Source `IndexedDBAdapter.cleanOldBackups`: nothing to do at ten or fewer
records; otherwise sort by timestamp, take all but the last ten as
`toDelete`, and delete them from the store by `id` (the store itself stays
in `id` order). -/
def cleanOldBackups (l : List (BackupRecord α)) : List (BackupRecord α) :=
  if l.length ≤ 10 then l
  else
    let sorted := sortByTimestamp l
    let toDelete := sorted.take (l.length - 10)
    l.filter (fun b => !((toDelete.map (fun x => x.id)).contains b.id))

/-- Source `IndexedDBAdapter.createBackup`: `store.add` appends a record with the
next auto-increment id and the current timestamp, then prunes old backups.
The id and the `Date.now()` timestamp are passed in explicitly. -/
def createBackup (l : List (BackupRecord α)) (nextId : ℕ) (ts : ℤ) (data : α) :
    List (BackupRecord α) :=
  cleanOldBackups (l ++ [{ id := nextId, timestamp := ts, data := data }])

/- ### Association-map lemmas -/

theorem emGet_emSet_self (m : EMap) (k : String) (v : List TimeEntry) :
    emGet (emSet m k v) k = some v := by
  induction m with
  | nil => simp [emGet, emSet]
  | cons p ps ih =>
    by_cases h : p.1 = k
    · simp [emGet, emSet, h]
    · simp only [emSet, beq_iff_eq, h, if_false]
      simp [emGet, beq_iff_eq, h, ih]

theorem emGet_emSet_ne (m : EMap) (k k' : String) (v : List TimeEntry)
    (h : k' ≠ k) : emGet (emSet m k v) k' = emGet m k' := by
  induction m with
  | nil => simp [emGet, emSet, beq_iff_eq, Ne.symm h]
  | cons p ps ih =>
    by_cases hp : p.1 = k
    · simp [emGet, emSet, beq_iff_eq, hp, Ne.symm h]
    · simp only [emSet, beq_iff_eq, hp, if_false]
      by_cases hp' : p.1 = k'
      · simp [emGet, beq_iff_eq, hp']
      · simp [emGet, beq_iff_eq, hp', ih]

theorem getEntriesForDate_emSet_self (m : EMap) (k : String) (v : List TimeEntry) :
    getEntriesForDate (emSet m k v) k = v := by
  simp [getEntriesForDate, emGet_emSet_self]

theorem getEntriesForDate_emSet_ne (m : EMap) (k k' : String) (v : List TimeEntry)
    (h : k' ≠ k) : getEntriesForDate (emSet m k v) k' = getEntriesForDate m k' := by
  simp [getEntriesForDate, emGet_emSet_ne m k k' v h]

theorem getEntriesForDate_clearDay_self (m : EMap) (k : String) :
    getEntriesForDate (clearDay m k) k = [] := by
  unfold clearDay
  by_cases h : (emGet m k).isSome
  · simp [h, getEntriesForDate_emSet_self]
  · simp only [h, if_false]
    simp only [getEntriesForDate]
    cases hg : emGet m k with
    | none => simp [hg]
    | some l => simp [hg] at h

theorem getEntriesForDate_clearDay_ne (m : EMap) (k k' : String) (h : k' ≠ k) :
    getEntriesForDate (clearDay m k) k' = getEntriesForDate m k' := by
  unfold clearDay
  by_cases hs : (emGet m k).isSome
  · simp [hs, getEntriesForDate_emSet_ne m k k' [] h]
  · simp [hs]

/-- What `addEntry` does to the day it targets: a special entry replaces the
whole day, a non-special entry is appended. -/
theorem getEntriesForDate_addEntry_self (m : EMap) (dk : String) (e : TimeEntry) :
    getEntriesForDate (addEntry m dk e) dk =
      (if isSpecialType e.type then [] else getEntriesForDate m dk) ++ [entryToAdd dk e] := by
  unfold addEntry
  by_cases hsp : isSpecialType e.type
  · simp only [hsp, if_true]
    by_cases hs : (emGet (clearDay m dk) dk).isSome
    · simp [hs, getEntriesForDate_emSet_self, getEntriesForDate_clearDay_self]
    · simp [hs, getEntriesForDate_emSet_self]
  · simp only [hsp, if_false, Bool.false_eq_true]
    by_cases hs : (emGet m dk).isSome
    · simp [hs, getEntriesForDate_emSet_self]
    · have h1 : getEntriesForDate m dk = [] := by
        unfold getEntriesForDate
        cases hg : emGet m dk with
        | none => simp [hg]
        | some l => simp [hg] at hs
      simp [hs, getEntriesForDate_emSet_self, h1]

/-- Source `addEntry` leaves every other day untouched. -/
theorem getEntriesForDate_addEntry_ne (m : EMap) (dk dk' : String) (e : TimeEntry)
    (h : dk' ≠ dk) :
    getEntriesForDate (addEntry m dk e) dk' = getEntriesForDate m dk' := by
  unfold addEntry
  have step2 : ∀ m1 : EMap,
      getEntriesForDate
        (emSet (if (emGet m1 dk).isSome then m1 else emSet m1 dk [])
          dk (getEntriesForDate (if (emGet m1 dk).isSome then m1 else emSet m1 dk []) dk
            ++ [entryToAdd dk e])) dk' = getEntriesForDate m1 dk' := by
    intro m1
    rw [getEntriesForDate_emSet_ne _ dk dk' _ h]
    by_cases hs : (emGet m1 dk).isSome
    · simp [hs]
    · simp [hs, getEntriesForDate_emSet_ne m1 dk dk' [] h]
  by_cases hsp : isSpecialType e.type
  · simp only [hsp, if_true]
    rw [step2 (clearDay m dk)]
    exact getEntriesForDate_clearDay_ne m dk dk' h
  · simp only [hsp, if_false]
    exact step2 m

/-- The day written by `addEntry` is present as a key afterwards. -/
theorem emGet_addEntry_isSome (m : EMap) (dk : String) (e : TimeEntry) :
    (emGet (addEntry m dk e) dk).isSome = true := by
  unfold addEntry
  simp [emGet_emSet_self]

theorem mem_orderedInsert {le : α → α → Bool} {x a : α} {l : List α} :
    a ∈ orderedInsert le x l ↔ a = x ∨ a ∈ l := by
  induction l with
  | nil => simp [orderedInsert]
  | cons y ys ih =>
    by_cases h : le x y
    · simp [orderedInsert, h]
    · simp only [orderedInsert, h, Bool.false_eq_true, if_false, List.mem_cons, ih]
      tauto

theorem mem_insertionSort {le : α → α → Bool} {a : α} {l : List α} :
    a ∈ insertionSort le l ↔ a ∈ l := by
  induction l with
  | nil => simp [insertionSort]
  | cons y ys ih =>
    simp only [insertionSort, List.foldr_cons, List.mem_cons]
    rw [mem_orderedInsert]
    simp only [insertionSort] at ih
    rw [ih]

/-- A present key is listed by `getWorkDates`. -/
theorem mem_getWorkDates_of_isSome (m : EMap) (dk : String)
    (h : (emGet m dk).isSome = true) : dk ∈ getWorkDates m := by
  rw [getWorkDates, mem_insertionSort]
  induction m with
  | nil => simp [emGet] at h
  | cons p ps ih =>
    simp only [emGet] at h
    by_cases hp : p.1 = dk
    · simp [hp]
    · simp only [beq_iff_eq, hp, if_false] at h
      simp [List.mem_map]
      right
      have := ih h
      simpa [List.mem_map] using this

/-- A present, non-empty day is a key of the serialized form. -/
theorem mem_weekToJSON_of_nonempty (m : EMap) (dk : String) (l : List TimeEntry)
    (h : emGet m dk = some l) (hne : l ≠ []) :
    dk ∈ (weekToJSON m).map (fun p => p.1) := by
  induction m with
  | nil => simp [emGet] at h
  | cons p ps ih =>
    simp only [emGet] at h
    by_cases hp : p.1 = dk
    · have hpl : p.2 = l := by simpa [hp] using h
      have hkeep : (!p.2.isEmpty) = true := by
        rw [hpl]
        cases l with
        | nil => exact absurd rfl hne
        | cons a as => simp
      simp [weekToJSON, List.filter_cons, hkeep, hp]
    · have h2 : emGet ps dk = some l := by simpa [hp] using h
      have hmem := ih h2
      by_cases hk : (!p.2.isEmpty) = true
      · simp only [weekToJSON, List.filter_cons, hk, if_true, List.map_cons, List.mem_cons]
        right
        simpa [weekToJSON] using hmem
      · simpa [weekToJSON, List.filter_cons, hk] using hmem

/- ### Claim C1 -/

/-- On a Friday the pause branch never fires in `calculateDayHoursPairs`. -/
theorem calculateDayHoursPairs_friday (es : List TimeEntry) (dk : String) (g : ℕ)
    (hf : isFriday dk = true)
    (hg : (calculateDayHoursPairs es dk).grossMinutes = some g) :
    (calculateDayHoursPairs es dk).minutes = (g : ℤ) ∧
      (calculateDayHoursPairs es dk).pauseApplied = some false := by
  unfold calculateDayHoursPairs at hg ⊢
  simp only [shouldApplyPause, hf, if_true] at hg ⊢
  simp only [Option.some_inj] at hg
  subst hg
  constructor
  · simp
  · simp

/-- Claim C1, counterexample: the claim asserts that on a Friday with gross
minutes above 360 the 30-minute break is deducted (08:00–17:00 on Friday
2026-02-06 would give 510 net minutes); the code exempts Friday from the
pause, returning the full 540. -/
theorem claim_C1_counterexample :
    isFriday ("2026-02-06") = true ∧
    (calculateDayHours
      [TimeEntry.ofData { type := ("entrata"), time := some ("08:00") },
       TimeEntry.ofData { type := ("uscita"), time := some ("17:00") }]
      ("2026-02-06")).grossMinutes = some 540 ∧
    ¬ (calculateDayHours
      [TimeEntry.ofData { type := ("entrata"), time := some ("08:00") },
       TimeEntry.ofData { type := ("uscita"), time := some ("17:00") }]
      ("2026-02-06")).minutes = 540 - 30 := by
  refine ⟨by decide, by decide, ?_⟩
  simp only [calculateDayHours, calculateDayHoursPairs, shouldApplyPause_eq]
  decide

/-- Claim C1, amended: on a Friday `calculateDayHours` never deducts the
break — whenever the pairing branch runs (gross minutes are reported), the
net minutes equal the gross minutes and `pauseApplied` is `false`, for any
gross amount; in particular clock-in 08:00 / clock-out 17:00 on a Friday
yields 540 net minutes, not 510. -/
theorem claim_C1_theorem (entries : List TimeEntry) (dk : String) (g : ℕ)
    (hf : isFriday dk = true)
    (hg : (calculateDayHours entries dk).grossMinutes = some g) :
    (calculateDayHours entries dk).minutes = (g : ℤ) ∧
      (calculateDayHours entries dk).pauseApplied = some false := by
  cases entries with
  | nil => simp [calculateDayHours] at hg
  | cons e tail =>
    cases tail with
    | nil =>
      by_cases hsp : isSpecialType e.type
      · simp [calculateDayHours, hsp] at hg
      · simp only [calculateDayHours, hsp, Bool.false_eq_true, if_false] at hg ⊢
        exact calculateDayHoursPairs_friday [e] dk g hf hg
    | cons e2 t2 =>
      simp only [calculateDayHours] at hg ⊢
      exact calculateDayHoursPairs_friday (e :: e2 :: t2) dk g hf hg

/-- Witness for the amended C1 at the Friday 08:00–17:00 example. -/
theorem claim_C1_witness :
    (calculateDayHours
      [TimeEntry.ofData { type := ("entrata"), time := some ("08:00") },
       TimeEntry.ofData { type := ("uscita"), time := some ("17:00") }]
      ("2026-02-06")).minutes = (540 : ℤ) :=
  (claim_C1_theorem
    [TimeEntry.ofData { type := ("entrata"), time := some ("08:00") },
     TimeEntry.ofData { type := ("uscita"), time := some ("17:00") }]
    ("2026-02-06") 540 (by decide) (by decide)).1

/- ### Claim C5 -/

/-- Claim C5: on a non-Friday date the break is deducted exactly when the
gross minutes strictly exceed 360, giving `max 0 (gross − 30)`, and the gross
amount is returned unchanged otherwise. -/
theorem claim_C5_theorem (entries : List TimeEntry) (dk : String) (g : ℕ)
    (hf : isFriday dk = false)
    (hg : (calculateDayHours entries dk).grossMinutes = some g) :
    (calculateDayHours entries dk).minutes =
      (if 360 < g then max 0 ((g : ℤ) - 30) else (g : ℤ)) := by
  have key : ∀ es : List TimeEntry,
      (calculateDayHoursPairs es dk).grossMinutes = some g →
      (calculateDayHoursPairs es dk).minutes =
        (if 360 < g then max 0 ((g : ℤ) - 30) else (g : ℤ)) := by
    intro es hg2
    unfold calculateDayHoursPairs at hg2 ⊢
    simp only [shouldApplyPause_eq, hf, Bool.not_false, Bool.true_and] at hg2 ⊢
    simp only [Option.some_inj] at hg2
    subst hg2
    by_cases h3 : 360 < (calculatePairMinutes es).1
    · simp [h3, PAUSE_MINUTES]
    · simp [h3]
  cases entries with
  | nil => simp [calculateDayHours] at hg
  | cons e tail =>
    cases tail with
    | nil =>
      by_cases hsp : isSpecialType e.type
      · simp [calculateDayHours, hsp] at hg
      · simp only [calculateDayHours, hsp, Bool.false_eq_true, if_false] at hg ⊢
        exact key [e] hg
    | cons e2 t2 =>
      simp only [calculateDayHours] at hg ⊢
      exact key (e :: e2 :: t2) hg

/-- Witness for C5 at the two boundary examples: 08:00–14:00 on Monday
2026-02-02 gives 360 net minutes (no deduction), 08:00–14:01 gives 331. -/
theorem claim_C5_witness :
    (calculateDayHours
      [TimeEntry.ofData { type := ("entrata"), time := some ("08:00") },
       TimeEntry.ofData { type := ("uscita"), time := some ("14:00") }]
      ("2026-02-02")).minutes = (360 : ℤ) ∧
    (calculateDayHours
      [TimeEntry.ofData { type := ("entrata"), time := some ("08:00") },
       TimeEntry.ofData { type := ("uscita"), time := some ("14:01") }]
      ("2026-02-02")).minutes = (331 : ℤ) := by
  constructor
  · have h := claim_C5_theorem
      [TimeEntry.ofData { type := ("entrata"), time := some ("08:00") },
       TimeEntry.ofData { type := ("uscita"), time := some ("14:00") }]
      ("2026-02-02") 360 (by decide) (by decide)
    simpa using h
  · have h := claim_C5_theorem
      [TimeEntry.ofData { type := ("entrata"), time := some ("08:00") },
       TimeEntry.ofData { type := ("uscita"), time := some ("14:01") }]
      ("2026-02-02") 361 (by decide) (by decide)
    norm_num at h
    exact h

/- ### Claim C4 -/

/-- Modelled from the spec's words (§4.4 step 3): the gross total is the sum
over the first `min` count of positionally paired clock-in/clock-out minute
values of `clockOut[i] − clockIn[i]`, counting only strictly positive
differences. -/
def specPairGross (ins outs : List ℕ) : ℤ :=
  (List.zipWith (fun a b => max 0 ((b : ℤ) - (a : ℤ))) ins outs).sum

theorem pairSum_eq (A B : List (Option String)) (ins outs : List ℕ)
    (hA : A.map parseTimeOpt = ins.map some) (hB : B.map parseTimeOpt = outs.map some) :
    ((((A.zip B).map (fun p =>
      (match parseTimeOpt p.1, parseTimeOpt p.2 with
      | some a, some b => if a < b then b - a else 0
      | _, _ => 0 : ℕ))).sum : ℕ) : ℤ) = specPairGross ins outs := by
  induction A generalizing ins B outs with
  | nil =>
    cases ins with
    | nil => simp [specPairGross]
    | cons i is => simp at hA
  | cons a as ih =>
    cases ins with
    | nil => simp at hA
    | cons i is =>
      simp only [List.map_cons, List.cons.injEq] at hA
      obtain ⟨ha, has⟩ := hA
      cases B with
      | nil =>
        cases outs with
        | nil => simp [specPairGross]
        | cons o os => simp at hB
      | cons b bs =>
        cases outs with
        | nil => simp at hB
        | cons o os =>
          simp only [List.map_cons, List.cons.injEq] at hB
          obtain ⟨hb, hbs⟩ := hB
          have htail := ih bs is os has hbs
          have hrhs : specPairGross (i :: is) (o :: os) =
              max 0 ((o : ℤ) - (i : ℤ)) + specPairGross is os := by
            simp [specPairGross]
          rw [List.zip_cons_cons, List.map_cons, List.sum_cons, Nat.cast_add, hrhs, ← htail]
          simp only [ha, hb]
          congr 1
          by_cases hio : i < o
          · simp only [hio, if_true]
            rw [max_eq_right (by omega)]
            omega
          · simp only [hio, if_false]
            rw [max_eq_left (by omega)]
            simp

/-- Claim C4: the gross worked minutes of the pairing step equal the
spec's positional sum over parsed clock-in/clock-out times (only strictly
positive differences contribute), and `hasIncomplete` holds exactly when
there are more clock-ins than clock-outs. -/
theorem claim_C4_theorem (entries : List TimeEntry) (ins outs : List ℕ)
    (hin : ((entries.filter (fun e => e.type == ("entrata"))).map
      (fun e => parseTimeOpt e.time)) = ins.map some)
    (hout : ((entries.filter (fun e => e.type == ("uscita"))).map
      (fun e => parseTimeOpt e.time)) = outs.map some) :
    (((calculatePairMinutes entries).1 : ℕ) : ℤ) = specPairGross ins outs ∧
      (calculatePairMinutes entries).2 = decide (ins.length > outs.length) := by
  unfold calculatePairMinutes
  constructor
  · have key := pairSum_eq
      ((entries.filter (fun e => e.type == ("entrata"))).map (fun e => e.time))
      ((entries.filter (fun e => e.type == ("uscita"))).map (fun e => e.time))
      ins outs (by simpa [List.map_map] using hin) (by simpa [List.map_map] using hout)
    simpa using key
  · have hlin : ((entries.filter (fun e => e.type == ("entrata"))).map
        (fun e => e.time)).length = ins.length := by
      have := congrArg List.length hin
      simpa using this
    have hlout : ((entries.filter (fun e => e.type == ("uscita"))).map
        (fun e => e.time)).length = outs.length := by
      have := congrArg List.length hout
      simpa using this
    simp only [hlin, hlout]

/-- Witness for C4 on a concrete two-pair day with an extra unmatched
clock-in. -/
theorem claim_C4_witness :
    ((((calculatePairMinutes
      [TimeEntry.ofData { type := ("entrata"), time := some ("08:00") },
       TimeEntry.ofData { type := ("uscita"), time := some ("12:00") },
       TimeEntry.ofData { type := ("entrata"), time := some ("13:00") },
       TimeEntry.ofData { type := ("uscita"), time := some ("17:00") },
       TimeEntry.ofData { type := ("entrata"), time := some ("18:00") }]).1 : ℕ) : ℤ) =
      specPairGross [480, 780, 1080] [720, 1020]) ∧
    (calculatePairMinutes
      [TimeEntry.ofData { type := ("entrata"), time := some ("08:00") },
       TimeEntry.ofData { type := ("uscita"), time := some ("12:00") },
       TimeEntry.ofData { type := ("entrata"), time := some ("13:00") },
       TimeEntry.ofData { type := ("uscita"), time := some ("17:00") },
       TimeEntry.ofData { type := ("entrata"), time := some ("18:00") }]).2 = true := by
  have h := claim_C4_theorem
    [TimeEntry.ofData { type := ("entrata"), time := some ("08:00") },
     TimeEntry.ofData { type := ("uscita"), time := some ("12:00") },
     TimeEntry.ofData { type := ("entrata"), time := some ("13:00") },
     TimeEntry.ofData { type := ("uscita"), time := some ("17:00") },
     TimeEntry.ofData { type := ("entrata"), time := some ("18:00") }]
    [480, 780, 1080] [720, 1020] (by decide) (by decide)
  exact ⟨h.1, by rw [h.2]; decide⟩

/- ### Claim C3 -/

/-- Claim C3, counterexample: updating a clock-in entry to type `smart`
(with new hours) leaves the old `time` in place, so both `time` and `hours`
are populated — `update` does not clear the field the new type makes
irrelevant. -/
theorem claim_C3_counterexample :
    ((TimeEntry.ofData { type := ("entrata"), time := some ("08:00") }).update
      { type := some ("smart"), hours := some 6 }).type = ("smart") ∧
    ((TimeEntry.ofData { type := ("entrata"), time := some ("08:00") }).update
      { type := some ("smart"), hours := some 6 }).time.isSome = true ∧
    ((TimeEntry.ofData { type := ("entrata"), time := some ("08:00") }).update
      { type := some ("smart"), hours := some 6 }).hours.isSome = true := by
  refine ⟨rfl, by decide, rfl⟩

/-- Source `update` sets the type to the supplied one. -/
theorem update_type_some (e : TimeEntry) (u : EntryUpdates) (t : String)
    (h : u.type = some t) : (e.update u).type = t := by
  unfold TimeEntry.update
  rw [h]
  rcases htime : u.time with _ | tv <;> rcases hh : u.hours with _ | hv <;>
    simp only [Option.getD_some] <;> (try dsimp only) <;>
      (try split_ifs) <;> rfl

/-- Source `update` keeps the type when none is supplied. -/
theorem update_type_none (e : TimeEntry) (u : EntryUpdates)
    (h : u.type = none) : (e.update u).type = e.type := by
  unfold TimeEntry.update
  rw [h]
  rcases htime : u.time with _ | tv <;> rcases hh : u.hours with _ | hv <;>
    simp only [Option.getD_none] <;> (try dsimp only) <;>
      (try split_ifs) <;> rfl

/-- Source `update` leaves `time` untouched when the (possibly new) type does
not require a time — the stale value is not cleared. -/
theorem update_time_not_required (e : TimeEntry) (u : EntryUpdates)
    (h : requiresTime (u.type.getD e.type) = false) : (e.update u).time = e.time := by
  unfold TimeEntry.update
  rcases htime : u.time with _ | tv <;> rcases hh : u.hours with _ | hv <;>
    (try dsimp only) <;> (try simp only [h, Bool.false_eq_true, if_false]) <;>
      (try split_ifs) <;> rfl

/-- Source `update` leaves `hours` untouched when the (possibly new) type is
not special — the stale value is not cleared. -/
theorem update_hours_not_special (e : TimeEntry) (u : EntryUpdates)
    (h : isSpecialType (u.type.getD e.type) = false) : (e.update u).hours = e.hours := by
  unfold TimeEntry.update
  rcases htime : u.time with _ | tv <;> rcases hh : u.hours with _ | hv <;>
    (try dsimp only) <;> (try simp only [h, Bool.false_eq_true, if_false]) <;>
      (try split_ifs) <;> rfl

/-- Claim C3, amended: at construction `hours` is populated exactly when the
type is special, and `time` only when the type requires a time (and the
supplied time parses) — so the type determines which field may be populated,
with at most one, but a clock entry whose time is missing or malformed has
neither.  `update` overwrites the type when supplied and applies only the
supplied fields relevant to the (possibly new) type; it does not clear stale
fields: after a type change away from clock-in/clock-out the old `time`
persists in the field (though `toJSON` then omits the `time` key), and after
a change away from special types the old `hours` persist both in the field
and in the serialized form, because `toJSON` emits `hours` whenever it is
non-null. -/
theorem claim_C3_theorem :
    (∀ d : EntryData, (TimeEntry.ofData d).hours.isSome = isSpecialType d.type ∧
      ((TimeEntry.ofData d).time.isSome = true → requiresTime d.type = true)) ∧
    (∀ (e : TimeEntry) (u : EntryUpdates),
      (∀ t, u.type = some t → (e.update u).type = t) ∧
      (requiresTime (u.type.getD e.type) = false → (e.update u).time = e.time) ∧
      (isSpecialType (u.type.getD e.type) = false → (e.update u).hours = e.hours) ∧
      (u.time = none → (e.update u).time = e.time) ∧
      (u.hours = none → (e.update u).hours = e.hours)) ∧
    (∀ e : TimeEntry,
      (requiresTime e.type = false → (TimeEntry.toJSON e).time = none) ∧
      (TimeEntry.toJSON e).hours = e.hours) ∧
    (∀ (e : TimeEntry) (u : EntryUpdates) (t : String), u.type = some t →
      (isSpecialType t = false → (TimeEntry.toJSON (e.update u)).hours = e.hours) ∧
      (requiresTime t = false → (TimeEntry.toJSON (e.update u)).time = none)) := by
  refine ⟨?_, ?_, ?_, ?_⟩
  · intro d
    constructor
    · unfold TimeEntry.ofData
      by_cases h : isSpecialType d.type
      · simp [h]
      · simp [h]
    · intro ht
      unfold TimeEntry.ofData at ht
      by_cases h : requiresTime d.type
      · exact h
      · simp [h] at ht
  · intro e u
    refine ⟨fun t ht => update_type_some e u t ht,
      fun h => update_time_not_required e u h,
      fun h => update_hours_not_special e u h, ?_, ?_⟩
    · intro h
      unfold TimeEntry.update
      rw [h]
      rcases hh : u.hours with _ | hv <;> (try dsimp only) <;>
        (try split_ifs) <;> rfl
    · intro h
      unfold TimeEntry.update
      rw [h]
      rcases htime : u.time with _ | tv <;> (try dsimp only) <;>
        (try split_ifs) <;> rfl
  · intro e
    constructor
    · intro h
      unfold TimeEntry.toJSON
      simp [h]
    · rfl
  · intro e u t ht
    constructor
    · intro hs
      have h1 : (e.update u).hours = e.hours := by
        apply update_hours_not_special
        rw [ht]
        simpa using hs
      show (e.update u).hours = e.hours
      exact h1
    · intro hr
      have htp : (e.update u).type = t := update_type_some e u t ht
      unfold TimeEntry.toJSON
      rw [htp]
      simp [hr]

/-- Witness for the amended C3: updating the clock-in entry to `smart`
leaves its `time` untouched, and updating a 7.5-hour `smart` entry to a
clock-in keeps the stale 7.5 hours even in its serialized form. -/
theorem claim_C3_witness :
    ((TimeEntry.ofData { type := ("entrata"), time := some ("08:00") }).update
      { type := some ("smart") }).time =
      (TimeEntry.ofData { type := ("entrata"), time := some ("08:00") }).time ∧
    (TimeEntry.toJSON
      ((TimeEntry.ofData { type := ("smart"), hours := some (15 / 2) }).update
        { type := some ("entrata"), time := some ("08:00") })).hours =
      (TimeEntry.ofData { type := ("smart"), hours := some (15 / 2) }).hours :=
  ⟨(claim_C3_theorem.2.1 (TimeEntry.ofData { type := ("entrata"), time := some ("08:00") })
      { type := some ("smart") }).2.1 (by decide),
   (claim_C3_theorem.2.2.2 (TimeEntry.ofData { type := ("smart"), hours := some (15 / 2) })
      { type := some ("entrata"), time := some ("08:00") } ("entrata") rfl).1 (by decide)⟩

/- ### Claim C6 -/

/-- The Friday override never changes the entry's type. -/
theorem entryToAdd_type (dk : String) (e : TimeEntry) :
    (entryToAdd dk e).type = e.type := by
  unfold entryToAdd
  split_ifs <;> rfl

/-- Claim C6: on a Friday, `addEntry` of a `smart` entry replaces the whole
day with exactly that entry, its hours forced to the Friday default of 6 —
regardless of the hours the entry carried. -/
theorem claim_C6_theorem (m : EMap) (dk : String) (e : TimeEntry)
    (hf : isFriday dk = true) (ht : e.type = ("smart")) :
    getEntriesForDate (addEntry m dk e) dk =
      [{ e with hours := some SMART_HOURS_FRIDAY }] := by
  have hsp : isSpecialType e.type = true := by rw [ht]; rfl
  rw [getEntriesForDate_addEntry_self, if_pos hsp]
  have : entryToAdd dk e = { e with hours := some SMART_HOURS_FRIDAY } := by
    unfold entryToAdd
    rw [if_pos]
    rw [hsp, ht, hf]
    rfl
  rw [this]
  rfl

/-- Witness for C6: a Friday with an existing clock-in, then a `smart` entry
supplied with 7.5 hours; the day ends as the single smart entry with 6
hours. -/
theorem claim_C6_witness :
    getEntriesForDate
      (addEntry
        (addEntry ([] : EMap) ("2026-02-06")
          (TimeEntry.ofData { type := ("entrata"), time := some ("08:00") }))
        ("2026-02-06")
        (TimeEntry.ofData { type := ("smart"), hours := some (15 / 2) }))
      ("2026-02-06") =
      [{ TimeEntry.ofData { type := ("smart"), hours := some (15 / 2) } with
          hours := some SMART_HOURS_FRIDAY }] :=
  claim_C6_theorem
    (addEntry ([] : EMap) ("2026-02-06")
      (TimeEntry.ofData { type := ("entrata"), time := some ("08:00") }))
    ("2026-02-06")
    (TimeEntry.ofData { type := ("smart"), hours := some (15 / 2) })
    (by decide) rfl

/- ### Claim C2 -/

theorem dayOkB_nil : dayOkB [] = true := rfl

theorem dayOkB_singleton_special (e : TimeEntry)
    (h : isSpecialType e.type = true) : dayOkB [e] = true := by
  simp [dayOkB, h]

theorem dayOkB_of_all_clock (l : List TimeEntry)
    (h : ∀ x ∈ l, x.type = ("entrata") ∨ x.type = ("uscita")) :
    dayOkB l = true := by
  simp only [dayOkB, Bool.or_eq_true, List.all_eq_true]
  right
  intro x hx
  rcases h x hx with h1 | h1 <;> simp [h1]

/-- The three shapes a day satisfying the invariant can have. -/
theorem dayOkB_cases (l : List TimeEntry) (h : dayOkB l = true) :
    l = [] ∨ (∃ e, l = [e] ∧ isSpecialType e.type = true) ∨
      (∀ x ∈ l, x.type = ("entrata") ∨ x.type = ("uscita")) := by
  simp only [dayOkB, Bool.or_eq_true, Bool.and_eq_true, List.all_eq_true] at h
  rcases h with (h | ⟨h1, h2⟩) | h
  · exact Or.inl (List.isEmpty_iff.mp h)
  · rcases List.length_eq_one.mp (by simpa using h1) with ⟨x, hx⟩
    subst hx
    exact Or.inr (Or.inl ⟨x, rfl, by simpa using h2⟩)
  · refine Or.inr (Or.inr ?_)
    intro x hx
    have h2 := h x hx
    simp only [Bool.or_eq_true, beq_iff_eq] at h2
    exact h2

theorem invariant_nil : WeekDataInvariant ([] : EMap) := by
  intro dk
  rfl

/-- A one-key map whose day satisfies the invariant satisfies it wholly. -/
theorem invariant_single (k : String) (l : List TimeEntry)
    (h : dayOkB l = true) : WeekDataInvariant [(k, l)] := by
  intro dk
  by_cases hk : k = dk
  · simp [getEntriesForDate, emGet, hk, h]
  · simp [getEntriesForDate, emGet, beq_iff_eq, hk, dayOkB]

/-- A day equal to a single special entry makes `isSpecialDay` true. -/
theorem isSpecialDay_of_day (m : EMap) (dk : String) (x : TimeEntry)
    (hx : getEntriesForDate m dk = [x]) (hsx : isSpecialType x.type = true) :
    isSpecialDay m dk = true := by
  unfold isSpecialDay
  cases hget : emGet m dk with
  | none =>
    unfold getEntriesForDate at hx
    rw [hget] at hx
    simp at hx
  | some l =>
    unfold getEntriesForDate at hx
    rw [hget] at hx
    simp only [Option.getD_some] at hx
    subst hx
    simp [hsx]

/-- Claim C2, counterexample: `addEntry` appends a clock entry even when the
day already holds a special entry, so after adding `smart` then `entrata` the
day has two entries, a special one and a clock one — violating the
exclusivity invariant. -/
theorem claim_C2_counterexample :
    ((getEntriesForDate
      (addEntry
        (addEntry ([] : EMap) ("2026-02-02")
          (TimeEntry.ofData { type := ("smart"), hours := some 6 }))
        ("2026-02-02")
        (TimeEntry.ofData { type := ("entrata"), time := some ("08:00") }))
      ("2026-02-02")).map (fun x => x.type) = [("smart"), ("entrata")]) ∧
    dayOkB (getEntriesForDate
      (addEntry
        (addEntry ([] : EMap) ("2026-02-02")
          (TimeEntry.ofData { type := ("smart"), hours := some 6 }))
        ("2026-02-02")
        (TimeEntry.ofData { type := ("entrata"), time := some ("08:00") }))
      ("2026-02-02")) = false := by
  constructor
  · decide
  · decide

theorem addSpecial_day (m : EMap) (dk : String) (e : TimeEntry)
    (h : isSpecialType e.type = true) :
    (getEntriesForDate (addEntry m dk e) dk).map (fun x => x.type) = [e.type] := by
  rw [getEntriesForDate_addEntry_self, if_pos h]
  simp [entryToAdd_type]

theorem addSpecial_invariant (m : EMap) (dk : String) (e : TimeEntry)
    (h : isSpecialType e.type = true) (hm : WeekDataInvariant m) :
    WeekDataInvariant (addEntry m dk e) := by
  intro dk2
  by_cases hk : dk2 = dk
  · subst hk
    rw [getEntriesForDate_addEntry_self, if_pos h]
    have hsp : isSpecialType (entryToAdd dk2 e).type = true := by
      rw [entryToAdd_type]
      exact h
    simpa using dayOkB_singleton_special _ hsp
  · rw [getEntriesForDate_addEntry_ne m dk dk2 e hk]
    exact hm dk2

theorem addClock_invariant (m : EMap) (dk : String) (e : TimeEntry)
    (hc : e.type = ("entrata") ∨ e.type = ("uscita"))
    (hm : WeekDataInvariant m) (hs : isSpecialDay m dk = false) :
    WeekDataInvariant (addEntry m dk e) := by
  have hnsp : isSpecialType e.type = false := by
    rcases hc with h | h <;> rw [h] <;> rfl
  have hnoov : entryToAdd dk e = e := by
    unfold entryToAdd
    rw [hnsp]
    rfl
  intro dk2
  by_cases hk : dk2 = dk
  · subst hk
    rw [getEntriesForDate_addEntry_self, hnoov, hnsp]
    simp only [Bool.false_eq_true, if_false]
    rcases dayOkB_cases _ (hm dk2) with h0 | ⟨x, hx, hsx⟩ | hall
    · rw [h0]
      refine dayOkB_of_all_clock _ ?_
      intro y hy
      simp only [List.nil_append, List.mem_singleton] at hy
      subst hy
      exact hc
    · exact absurd (isSpecialDay_of_day m dk2 x hx hsx) (by simp [hs])
    · refine dayOkB_of_all_clock _ ?_
      intro y hy
      rcases List.mem_append.mp hy with h1 | h1
      · exact hall y h1
      · simp only [List.mem_singleton] at h1
        subst h1
        exact hc
  · rw [getEntriesForDate_addEntry_ne m dk dk2 e hk]
    exact hm dk2

theorem updateEntry_invariant (m : EMap) (dk : String) (i : ℕ) (u : EntryUpdates)
    (hm : WeekDataInvariant m)
    (hv : ∀ t, u.type = some t → t ∈ VALID_ENTRY_TYPES) :
    WeekDataInvariant (updateEntry m dk i u).1 := by
  have hvalid : ∀ t, u.type = some t → isSpecialType t = false →
      t = ("entrata") ∨ t = ("uscita")  := by
    intro t ht hns
    have hvt := hv t ht
    simp only [VALID_ENTRY_TYPES, List.mem_cons, List.mem_singleton,
      List.not_mem_nil, or_false] at hvt
    rcases hvt with h | h | h | h
    · exact Or.inl h
    · exact Or.inr h
    · rw [h] at hns
      simp [isSpecialType, SPECIAL_TYPES] at hns
    · rw [h] at hns
      simp [isSpecialType, SPECIAL_TYPES] at hns
  unfold updateEntry
  cases hget : emGet m dk with
  | none => exact hm
  | some l =>
    dsimp only
    by_cases hi : i < l.length
    · rw [dif_pos hi]
      by_cases hb : ((match u.type with
          | some t => isSpecialType t
          | none => false) && !(isSpecialType (l.get ⟨i, hi⟩).type)) = true
      · rw [if_pos hb]
        have ht : ∃ t, u.type = some t ∧ isSpecialType t = true := by
          have hb2 := hb
          simp only [Bool.and_eq_true] at hb2
          rcases hb2 with ⟨h1, _⟩
          cases hu : u.type with
          | none => rw [hu] at h1; simp at h1
          | some t => exact ⟨t, rfl, by rw [hu] at h1; simpa using h1⟩
        rcases ht with ⟨t, hut, hts⟩
        intro dk2
        by_cases hk : dk2 = dk
        · subst hk
          dsimp only
          rw [getEntriesForDate_emSet_self, getEntriesForDate_clearDay_self]
          have hsp : isSpecialType ((l.get ⟨i, hi⟩).update u).type = true := by
            rw [update_type_some _ u t hut]
            exact hts
          simpa using dayOkB_singleton_special _ hsp
        · dsimp only
          rw [getEntriesForDate_emSet_ne _ dk dk2 _ hk,
            getEntriesForDate_clearDay_ne m dk dk2 hk]
          exact hm dk2
      · rw [if_neg hb]
        intro dk2
        by_cases hk : dk2 = dk
        · subst hk
          dsimp only
          rw [getEntriesForDate_emSet_self]
          have hday : getEntriesForDate m dk2 = l := by
            unfold getEntriesForDate
            rw [hget]
            rfl
          have hokl : dayOkB l = true := by
            rw [← hday]
            exact hm dk2
          set e0 := l.get ⟨i, hi⟩ with he0
          set ue := e0.update u with hue
          rcases dayOkB_cases l hokl with h0 | ⟨x, hx, hsx⟩ | hall
          · subst h0
            simp at hi
          · have hi1 : i = 0 := by
              rw [hx] at hi
              simpa using Nat.lt_one_iff.mp (by simpa [hx] using hi)
            have he0x : e0 = x := by
              rw [he0]
              subst hi1
              rw [List.get_of_eq hx]
              rfl
            rw [hx, hi1]
            have hset : ([x].set 0 ue) = [ue] := rfl
            rw [hset]
            cases hu : u.type with
            | none =>
              have : ue.type = x.type := by
                rw [hue, he0x]
                exact update_type_none x u hu
              exact dayOkB_singleton_special _ (by rw [this]; exact hsx)
            | some t =>
              have htp : ue.type = t := by
                rw [hue]
                exact update_type_some e0 u t hu
              by_cases hts : isSpecialType t = true
              · exact dayOkB_singleton_special _ (by rw [htp]; exact hts)
              · refine dayOkB_of_all_clock _ ?_
                intro y hy
                simp only [List.mem_singleton] at hy
                subst hy
                rw [htp]
                exact hvalid t hu (by simpa using hts)
          · refine dayOkB_of_all_clock _ ?_
            intro y hy
            rcases List.mem_or_eq_of_mem_set hy with h1 | h1
            · exact hall y h1
            · subst h1
              have he0c : e0.type = ("entrata") ∨ e0.type = ("uscita") :=
                hall e0 (List.get_mem l i hi)
              have he0ns : isSpecialType e0.type = false := by
                rcases he0c with h2 | h2 <;> rw [h2] <;> rfl
              cases hu : u.type with
              | none =>
                rw [hue, update_type_none e0 u hu]
                exact he0c
              | some t =>
                have hnts : isSpecialType t = false := by
                  by_contra hcon
                  have hcon2 : isSpecialType t = true := by
                    simpa using hcon
                  apply hb
                  simp [hu, hcon2, he0ns]
                rw [hue, update_type_some e0 u t hu]
                exact hvalid t hu hnts
        · dsimp only
          rw [getEntriesForDate_emSet_ne _ dk dk2 _ hk]
          exact hm dk2
    · rw [dif_neg hi]
      exact hm

theorem deleteEntry_invariant (m : EMap) (dk : String) (i : ℕ)
    (hm : WeekDataInvariant m) :
    WeekDataInvariant (deleteEntry m dk i).1 := by
  unfold deleteEntry
  cases hget : emGet m dk with
  | none => exact hm
  | some l =>
    dsimp only
    by_cases hi : i < l.length
    · rw [dif_pos hi]
      intro dk2
      by_cases hk : dk2 = dk
      · subst hk
        dsimp only
        rw [getEntriesForDate_emSet_self]
        have hday : getEntriesForDate m dk2 = l := by
          unfold getEntriesForDate
          rw [hget]
          rfl
        have hokl : dayOkB l = true := by
          rw [← hday]
          exact hm dk2
        rcases dayOkB_cases l hokl with h0 | ⟨x, hx, hsx⟩ | hall
        · subst h0
          simp at hi
        · have hi1 : i = 0 := by
            rw [hx] at hi
            simpa using Nat.lt_one_iff.mp (by simpa [hx] using hi)
          rw [hx, hi1]
          exact dayOkB_nil
        · refine dayOkB_of_all_clock _ ?_
          intro y hy
          exact hall y ((List.eraseIdx_sublist l i).subset hy)
      · dsimp only
        rw [getEntriesForDate_emSet_ne _ dk dk2 _ hk]
        exact hm dk2
    · rw [dif_neg hi]
      exact hm

theorem clearDay_invariant (m : EMap) (dk : String)
    (hm : WeekDataInvariant m) : WeekDataInvariant (clearDay m dk) := by
  intro dk2
  by_cases hk : dk2 = dk
  · subst hk
    rw [getEntriesForDate_clearDay_self]
    exact dayOkB_nil
  · rw [getEntriesForDate_clearDay_ne m dk dk2 hk]
    exact hm dk2

/-- Claim C2, amended: adding a special entry always leaves exactly one
entry of that special type (so "special after clocks" behaves as claimed),
and the exclusivity invariant is preserved by `updateEntry` (for updates
with recognised types), `deleteEntry`, `clearDay`, and by `addEntry` of a
clock entry provided the day is not currently a special day — but `addEntry`
appends a clock entry even onto a special day (see the counterexample), so
the invariant is not preserved unconditionally. -/
theorem claim_C2_theorem :
    (∀ (m : EMap) (dk : String) (e : TimeEntry), isSpecialType e.type = true →
      (getEntriesForDate (addEntry m dk e) dk).map (fun x => x.type) = [e.type]) ∧
    (∀ (m : EMap) (dk : String) (e : TimeEntry), isSpecialType e.type = true →
      WeekDataInvariant m → WeekDataInvariant (addEntry m dk e)) ∧
    (∀ (m : EMap) (dk : String) (e : TimeEntry),
      e.type = ("entrata") ∨ e.type = ("uscita") → WeekDataInvariant m →
      isSpecialDay m dk = false → WeekDataInvariant (addEntry m dk e)) ∧
    (∀ (m : EMap) (dk : String) (i : ℕ) (u : EntryUpdates), WeekDataInvariant m →
      (∀ t, u.type = some t → t ∈ VALID_ENTRY_TYPES) →
      WeekDataInvariant (updateEntry m dk i u).1) ∧
    (∀ (m : EMap) (dk : String) (i : ℕ), WeekDataInvariant m →
      WeekDataInvariant (deleteEntry m dk i).1) ∧
    (∀ (m : EMap) (dk : String), WeekDataInvariant m →
      WeekDataInvariant (clearDay m dk)) :=
  ⟨addSpecial_day, addSpecial_invariant, addClock_invariant,
    updateEntry_invariant, deleteEntry_invariant, clearDay_invariant⟩

/-- Witness for the amended C2: on a day holding a clock-in, adding a
`smart` entry leaves exactly one `smart` entry and the invariant holds. -/
theorem claim_C2_witness :
    ((getEntriesForDate
      (addEntry
        (addEntry ([] : EMap) ("2026-02-02")
          (TimeEntry.ofData { type := ("entrata"), time := some ("08:00") }))
        ("2026-02-02")
        (TimeEntry.ofData { type := ("smart"), hours := some 6 }))
      ("2026-02-02")).map (fun x => x.type) = [("smart")]) ∧
    WeekDataInvariant
      (addEntry
        (addEntry ([] : EMap) ("2026-02-02")
          (TimeEntry.ofData { type := ("entrata"), time := some ("08:00") }))
        ("2026-02-02")
        (TimeEntry.ofData { type := ("smart"), hours := some 6 })) := by
  constructor
  · exact claim_C2_theorem.1 _ ("2026-02-02")
      (TimeEntry.ofData { type := ("smart"), hours := some 6 }) (by decide)
  · refine claim_C2_theorem.2.1 _ ("2026-02-02")
      (TimeEntry.ofData { type := ("smart"), hours := some 6 }) (by decide) ?_
    exact invariant_single ("2026-02-02")
      [TimeEntry.ofData { type := ("entrata"), time := some ("08:00") }] (by decide)

/- ### Claim C7 -/

theorem aggGet_append_isSome {α : Type} (cur : List (String × α)) (p : String × α)
    (k : String) (h : (aggGet cur k).isSome = true) :
    aggGet (cur ++ [p]) k = aggGet cur k := by
  induction cur with
  | nil => simp [aggGet] at h
  | cons q qs ih =>
    by_cases hq : q.1 = k
    · simp [aggGet, hq]
    · simp only [aggGet, beq_iff_eq, hq, if_false] at h ⊢
      exact ih h

theorem aggGet_append_ne {α : Type} (cur : List (String × α)) (p : String × α)
    (k : String) (h : k ≠ p.1) : aggGet (cur ++ [p]) k = aggGet cur k := by
  induction cur with
  | nil => simp [aggGet, beq_iff_eq, Ne.symm h]
  | cons q qs ih =>
    by_cases hq : q.1 = k
    · simp [aggGet, hq]
    · simp only [List.cons_append, aggGet, beq_iff_eq, hq, if_false]
      exact ih

theorem aggGet_append_self {α : Type} (cur : List (String × α)) (k : String) (v : α)
    (h : aggGet cur k = none) : aggGet (cur ++ [(k, v)]) k = some v := by
  induction cur with
  | nil => simp [aggGet]
  | cons q qs ih =>
    by_cases hq : q.1 = k
    · simp [aggGet, hq] at h
    · simp only [aggGet, beq_iff_eq, hq, if_false] at h
      simp only [List.cons_append, aggGet, beq_iff_eq, hq, if_false]
      exact ih h

/-- In merge mode an existing binding survives import untouched. -/
theorem importMerge_preserves {α : Type} (payload : List (String × α)) :
    ∀ (cur : List (String × α)) (k : String) (v : α), aggGet cur k = some v →
      aggGet (importDataMerge cur payload).1 k = some v := by
  induction payload with
  | nil =>
    intro cur k v h
    exact h
  | cons p ps ih =>
    intro cur k v h
    unfold importDataMerge
    by_cases hp : (aggGet cur p.1).isSome = true
    · simp only [hp, if_true]
      exact ih cur k v h
    · simp only [hp, Bool.false_eq_true, if_false]
      refine ih (cur ++ [p]) k v ?_
      rw [aggGet_append_isSome cur p k (by simp [h])]
      exact h

/-- Keys outside the payload are never mutated by a merge import. -/
theorem importMerge_untouched {α : Type} (payload : List (String × α)) :
    ∀ (cur : List (String × α)) (k : String), k ∉ payload.map (fun p => p.1) →
      aggGet (importDataMerge cur payload).1 k = aggGet cur k := by
  induction payload with
  | nil =>
    intro cur k _
    rfl
  | cons p ps ih =>
    intro cur k hk
    simp only [List.map_cons, List.mem_cons, not_or] at hk
    unfold importDataMerge
    by_cases hp : (aggGet cur p.1).isSome = true
    · simp only [hp, if_true]
      exact ih cur k hk.2
    · simp only [hp, Bool.false_eq_true, if_false]
      rw [ih (cur ++ [p]) k hk.2]
      exact aggGet_append_ne cur p k hk.1

/-- An absent payload key is added with its payload value. -/
theorem importMerge_adds {α : Type} (payload : List (String × α)) :
    ∀ (cur : List (String × α)) (k : String) (v : α),
      (payload.map (fun p => p.1)).Nodup → (k, v) ∈ payload →
      aggGet cur k = none →
      aggGet (importDataMerge cur payload).1 k = some v := by
  induction payload with
  | nil =>
    intro cur k v _ hmem _
    simp at hmem
  | cons p ps ih =>
    intro cur k v hnd hmem habs
    simp only [List.map_cons, List.nodup_cons] at hnd
    rcases List.mem_cons.mp hmem with hhead | htail
    · subst hhead
      unfold importDataMerge
      simp only [habs, Option.isSome_none, Bool.false_eq_true, if_false]
      exact importMerge_preserves ps (cur ++ [(k, v)]) k v
        (aggGet_append_self cur k v habs)
    · have hkne : k ≠ p.1 := by
        intro hcon
        apply hnd.1
        rw [← hcon]
        exact List.mem_map.mpr ⟨(k, v), htail, rfl⟩
      unfold importDataMerge
      by_cases hp : (aggGet cur p.1).isSome = true
      · simp only [hp, if_true]
        exact ih cur k v hnd.2 htail habs
      · simp only [hp, Bool.false_eq_true, if_false]
        refine ih (cur ++ [p]) k v hnd.2 htail ?_
        rw [aggGet_append_ne cur p k hkne]
        exact habs

/-- The returned counters are the numbers of absent and present payload
keys. -/
theorem importMerge_counts {α : Type} (payload : List (String × α)) :
    ∀ cur : List (String × α), (payload.map (fun p => p.1)).Nodup →
      (importDataMerge cur payload).2.1 =
        (payload.filter (fun p => (aggGet cur p.1).isNone)).length ∧
      (importDataMerge cur payload).2.2 =
        (payload.filter (fun p => (aggGet cur p.1).isSome)).length := by
  induction payload with
  | nil =>
    intro cur _
    exact ⟨rfl, rfl⟩
  | cons p ps ih =>
    intro cur hnd
    simp only [List.map_cons, List.nodup_cons] at hnd
    have hagree : ∀ q ∈ ps, q.1 ≠ p.1 := by
      intro q hq hcon
      apply hnd.1
      rw [← hcon]
      exact List.mem_map.mpr ⟨q, hq, rfl⟩
    unfold importDataMerge
    by_cases hp : (aggGet cur p.1).isSome = true
    · simp only [hp, if_true]
      have hih := ih cur hnd.2
      constructor
      · rw [hih.1]
        rw [List.filter_cons]
        simp [Option.isNone_iff_eq_none, Option.isSome_iff_exists] at hp ⊢
        rcases hp with ⟨w, hw⟩
        simp [hw]
      · rw [hih.2]
        rw [List.filter_cons]
        simp only [hp, if_true, List.length_cons]
    · simp only [hp, Bool.false_eq_true, if_false]
      have hih := ih (cur ++ [p]) hnd.2
      have hfilt1 : (ps.filter (fun q => (aggGet (cur ++ [p]) q.1).isNone)) =
          (ps.filter (fun q => (aggGet cur q.1).isNone)) := by
        apply List.filter_congr
        intro q hq
        rw [aggGet_append_ne cur p q.1 (hagree q hq)]
      have hfilt2 : (ps.filter (fun q => (aggGet (cur ++ [p]) q.1).isSome)) =
          (ps.filter (fun q => (aggGet cur q.1).isSome)) := by
        apply List.filter_congr
        intro q hq
        rw [aggGet_append_ne cur p q.1 (hagree q hq)]
      constructor
      · rw [hih.1, hfilt1, List.filter_cons]
        have : (aggGet cur p.1).isNone = true := by
          cases hopt : aggGet cur p.1 with
          | none => rfl
          | some w => rw [hopt] at hp; simp at hp
        simp only [this, if_true, List.length_cons]
      · rw [hih.2, hfilt2, List.filter_cons]
        simp only [hp, Bool.false_eq_true, if_false]

/-- Claim C7: merge import preserves every existing binding, adds exactly the
absent payload keys (with their payload values), never mutates keys outside
the payload, and returns `{imported, existing}` counting absent and present
payload keys. -/
theorem claim_C7_theorem {α : Type} (cur payload : List (String × α)) :
    (∀ (k : String) (v : α), aggGet cur k = some v →
      aggGet (importDataMerge cur payload).1 k = some v) ∧
    (∀ k : String, k ∉ payload.map (fun p => p.1) →
      aggGet (importDataMerge cur payload).1 k = aggGet cur k) ∧
    ((payload.map (fun p => p.1)).Nodup → ∀ (k : String) (v : α),
      (k, v) ∈ payload → aggGet cur k = none →
      aggGet (importDataMerge cur payload).1 k = some v) ∧
    ((payload.map (fun p => p.1)).Nodup →
      (importDataMerge cur payload).2.1 =
        (payload.filter (fun p => (aggGet cur p.1).isNone)).length ∧
      (importDataMerge cur payload).2.2 =
        (payload.filter (fun p => (aggGet cur p.1).isSome)).length) :=
  ⟨fun k v h => importMerge_preserves payload cur k v h,
   fun k h => importMerge_untouched payload cur k h,
   fun hnd k v hmem habs => importMerge_adds payload cur k v hnd hmem habs,
   fun hnd => importMerge_counts payload cur hnd⟩

/-- Witness for C7 at the spec's example: existing `2026-W05 ↦ X`, payload
`2026-W05 ↦ Y, 2026-W06 ↦ Z` gives `2026-W05 ↦ X`, `2026-W06 ↦ Z`,
`imported = 1`, `existing = 1`. -/
theorem claim_C7_witness :
    aggGet (importDataMerge [(("2026-W05"), ("X"))]
      [(("2026-W05"), ("Y")), (("2026-W06"), ("Z"))]).1 ("2026-W05") = some ("X") ∧
    aggGet (importDataMerge [(("2026-W05"), ("X"))]
      [(("2026-W05"), ("Y")), (("2026-W06"), ("Z"))]).1 ("2026-W06") = some ("Z") ∧
    (importDataMerge [(("2026-W05"), ("X"))]
      [(("2026-W05"), ("Y")), (("2026-W06"), ("Z"))]).2.1 = 1 ∧
    (importDataMerge [(("2026-W05"), ("X"))]
      [(("2026-W05"), ("Y")), (("2026-W06"), ("Z"))]).2.2 = 1 := by
  have h := claim_C7_theorem [(("2026-W05"), ("X"))]
    [(("2026-W05"), ("Y")), (("2026-W06"), ("Z"))]
  refine ⟨h.1 ("2026-W05") ("X") (by decide), ?_, ?_, ?_⟩
  · exact h.2.2.1 (by decide) ("2026-W06") ("Z") (by decide) (by decide)
  · rw [(h.2.2.2 (by decide)).1]
    decide
  · rw [(h.2.2.2 (by decide)).2]
    decide

/- ### Claim C8 -/

/-- A stable sort leaves an already-sorted list unchanged. -/
theorem insertionSort_of_chain {α : Type} (le : α → α → Bool) :
    ∀ l : List α, l.Chain' (fun a b => le a b = true) → insertionSort le l = l := by
  intro l
  induction l with
  | nil => intro _; rfl
  | cons x xs ih =>
    intro h
    have hstep : insertionSort le (x :: xs) = orderedInsert le x (insertionSort le xs) := rfl
    rw [hstep, ih h.tail]
    cases xs with
    | nil => rfl
    | cons y ys =>
      have hxy : le x y = true := (List.chain'_cons.mp h).1
      simp [orderedInsert, hxy]

/-- Deleting the ids of the first `k` records from a duplicate-free record
list leaves exactly the records after position `k`. -/
theorem filter_take_ids {α : Type} :
    ∀ (l : List (BackupRecord α)) (k : ℕ), (l.map (fun b => b.id)).Nodup →
      l.filter (fun b => !(((l.take k).map (fun x => x.id)).contains b.id)) =
        l.drop k := by
  intro l
  induction l with
  | nil =>
    intro k _
    simp
  | cons x xs ih =>
    intro k hnd
    simp only [List.map_cons, List.nodup_cons] at hnd
    cases k with
    | zero =>
      simp only [List.take_zero, List.map_nil, List.drop_zero]
      apply List.filter_eq_self.mpr
      intro a _
      rfl
    | succ n =>
      simp only [List.take_succ_cons, List.map_cons]
      rw [List.filter_cons]
      have hx : (!((x.id :: (xs.take n).map (fun y => y.id)).contains x.id)) = false := by
        simp [List.contains_cons]
      rw [hx]
      simp only [Bool.false_eq_true, if_false]
      have hcong : xs.filter
          (fun b => !((x.id :: (xs.take n).map (fun y => y.id)).contains b.id)) =
          xs.filter (fun b => !(((xs.take n).map (fun y => y.id)).contains b.id)) := by
        apply List.filter_congr
        intro b hb
        have hbne : b.id ≠ x.id := by
          intro hcon
          apply hnd.1
          rw [← hcon]
          exact List.mem_map.mpr ⟨b, hb, rfl⟩
        simp [List.contains_cons, hbne]
      rw [hcong, ih n hnd.2, List.drop_succ_cons]

/-- Claim C8: a `createBackup` call on a log with duplicate-free ids and
nondecreasing timestamps (the auto-increment id and `Date.now()` guarantee
both) keeps exactly the most recent ten records: the resulting log is the
suffix of the appended log past position `length + 1 − 10`, and its length is
`min (length + 1) 10` — in particular never more than ten. -/
theorem claim_C8_theorem {α : Type} (l : List (BackupRecord α)) (nextId : ℕ)
    (ts : ℤ) (d : α)
    (hnd : ((l ++ [({ id := nextId, timestamp := ts, data := d } : BackupRecord α)]).map
      (fun b => b.id)).Nodup)
    (hch : (l ++ [({ id := nextId, timestamp := ts, data := d } : BackupRecord α)]).Chain'
      (fun a b => a.timestamp ≤ b.timestamp)) :
    createBackup l nextId ts d =
      (l ++ [({ id := nextId, timestamp := ts, data := d } : BackupRecord α)]).drop (l.length + 1 - 10) ∧
    (createBackup l nextId ts d).length = min (l.length + 1) 10 := by
  have h1 : createBackup l nextId ts d =
      cleanOldBackups (l ++ [({ id := nextId, timestamp := ts, data := d } : BackupRecord α)]) := rfl
  have hlen2 : (l ++ [({ id := nextId, timestamp := ts, data := d } : BackupRecord α)]).length =
      l.length + 1 := by simp
  rw [h1]
  unfold cleanOldBackups
  by_cases hle : (l ++ [({ id := nextId, timestamp := ts, data := d } : BackupRecord α)]).length ≤ 10
  · rw [if_pos hle]
    rw [hlen2] at hle
    constructor
    · have hz : l.length + 1 - 10 = 0 := by omega
      rw [hz, List.drop_zero]
    · rw [hlen2]
      omega
  · rw [if_neg hle]
    rw [hlen2] at hle
    have hsort : sortByTimestamp (l ++ [({ id := nextId, timestamp := ts, data := d } : BackupRecord α)]) =
        l ++ [({ id := nextId, timestamp := ts, data := d } : BackupRecord α)] := by
      apply insertionSort_of_chain
      exact hch.imp (fun a b h => decide_eq_true h)
    dsimp only
    rw [hsort, hlen2, filter_take_ids _ (l.length + 1 - 10) hnd]
    refine ⟨rfl, ?_⟩
    rw [List.length_drop, hlen2]
    omega

/-- Witness for C8: eleven `createBackup` calls with increasing ids and
timestamps leave exactly ten records, the ten most recent. -/
theorem claim_C8_witness :
    (createBackup
      ((List.range 10).foldl
        (fun acc i => createBackup acc i ((i : ℤ)) (0 : ℕ)) [])
      10 10 0).length = 10 ∧
    (createBackup
      ((List.range 10).foldl
        (fun acc i => createBackup acc i ((i : ℤ)) (0 : ℕ)) [])
      10 10 0).map (fun b => b.timestamp) = [1, 2, 3, 4, 5, 6, 7, 8, 9, 10] := by
  have hfold : (List.range 10).foldl
      (fun acc i => createBackup acc i ((i : ℤ)) (0 : ℕ)) [] =
      ([⟨0, 0, 0⟩, ⟨1, 1, 0⟩, ⟨2, 2, 0⟩, ⟨3, 3, 0⟩, ⟨4, 4, 0⟩, ⟨5, 5, 0⟩,
        ⟨6, 6, 0⟩, ⟨7, 7, 0⟩, ⟨8, 8, 0⟩, ⟨9, 9, 0⟩] : List (BackupRecord ℕ)) := by
    decide
  constructor
  · have h := claim_C8_theorem
      ([⟨0, 0, 0⟩, ⟨1, 1, 0⟩, ⟨2, 2, 0⟩, ⟨3, 3, 0⟩, ⟨4, 4, 0⟩, ⟨5, 5, 0⟩,
        ⟨6, 6, 0⟩, ⟨7, 7, 0⟩, ⟨8, 8, 0⟩, ⟨9, 9, 0⟩] : List (BackupRecord ℕ))
      10 10 0 (by decide) (by norm_num [List.chain'_cons])
    rw [hfold, h.2]
    decide
  · rw [hfold]
    decide

/- ### Claim C9 -/

theorem natDigitsAux_fuel : ∀ (f1 f2 n : ℕ), n < f1 → n < f2 →
    natDigitsAux f1 n = natDigitsAux f2 n := by
  intro f1
  induction f1 with
  | zero => intro f2 n h1 _; omega
  | succ f ih =>
    intro f2 n h1 h2
    cases f2 with
    | zero => omega
    | succ g =>
      simp only [natDigitsAux]
      by_cases h10 : n < 10
      · rw [if_pos h10, if_pos h10]
      · rw [if_neg h10, if_neg h10]
        have hd : n / 10 < n := Nat.div_lt_self (by omega) (by omega)
        rw [ih g (n / 10) (by omega) (by omega)]

theorem natDigitsM_small (n : ℕ) (h : n < 10) : natDigitsM n = [n] := by
  unfold natDigitsM
  simp [natDigitsAux, h]

theorem natDigitsM_step (n : ℕ) (h : 10 ≤ n) :
    natDigitsM n = natDigitsM (n / 10) ++ [n % 10] := by
  unfold natDigitsM
  have h1 : natDigitsAux (n + 1) n = natDigitsAux n (n / 10) ++ [n % 10] := by
    simp only [natDigitsAux]
    rw [if_neg (by omega)]
  rw [h1]
  have hd : n / 10 < n := Nat.div_lt_self (by omega) (by omega)
  rw [natDigitsAux_fuel n (n / 10 + 1) (n / 10) (by omega) (by omega)]

theorem natDigitsM_two (n : ℕ) (h1 : 10 ≤ n) (h2 : n ≤ 99) :
    natDigitsM n = [n / 10, n % 10] := by
  rw [natDigitsM_step n h1, natDigitsM_small (n / 10) (by omega)]
  rfl

theorem natDigitsM_four (n : ℕ) (h1 : 1000 ≤ n) (h2 : n ≤ 9999) :
    natDigitsM n = [n / 1000, n / 100 % 10, n / 10 % 10, n % 10] := by
  have e1 : n / 10 / 10 = n / 100 := by omega
  have e2 : n / 100 / 10 = n / 1000 := by omega
  rw [natDigitsM_step n (by omega), natDigitsM_step (n / 10) (by omega), e1,
    natDigitsM_step (n / 100) (by omega), e2, natDigitsM_small (n / 1000) (by omega)]
  simp

theorem digitVal_digitChar10 (d : ℕ) (h : d < 10) :
    digitVal (digitChar10 d) = d := by
  interval_cases d <;> decide

theorem isDigitCh_digitChar10 (d : ℕ) (h : d < 10) :
    isDigitCh (digitChar10 d) = true := by
  interval_cases d <;> decide

theorem isSome_ite_some {α : Type} (c : Bool) (x : α) :
    (if c = true then some x else none).isSome = c := by
  cases c <;> simp

/-- Round-trip for a single-digit week. -/
theorem getWeekKey_toList_small (y w : ℕ) (h1 : 1000 ≤ y) (h2 : y ≤ 9999)
    (hw : w < 10) :
    (getWeekKey y w).toList =
      [digitChar10 (y / 1000), digitChar10 (y / 100 % 10), digitChar10 (y / 10 % 10),
       digitChar10 (y % 10), '-', 'W', '0', digitChar10 w] := by
  show (natToString y ++ String.mk ['-', 'W'] ++ padStart2 (natToString w)).toList = _
  unfold natToString
  rw [natDigitsM_four y h1 h2, natDigitsM_small w hw]
  rfl

/-- Round-trip for a two-digit week. -/
theorem getWeekKey_toList_two (y w : ℕ) (h1 : 1000 ≤ y) (h2 : y ≤ 9999)
    (hw1 : 10 ≤ w) (hw2 : w ≤ 99) :
    (getWeekKey y w).toList =
      [digitChar10 (y / 1000), digitChar10 (y / 100 % 10), digitChar10 (y / 10 % 10),
       digitChar10 (y % 10), '-', 'W', digitChar10 (w / 10), digitChar10 (w % 10)] := by
  show (natToString y ++ String.mk ['-', 'W'] ++ padStart2 (natToString w)).toList = _
  unfold natToString
  rw [natDigitsM_four y h1 h2, natDigitsM_two w hw1 hw2]
  rfl

/-- Claim C9: `parseWeekKey` inverts `getWeekKey` on four-digit years and
weeks 1–53 (the zero-padding of the week is part of the round-trip), and
`parseWeekKey` succeeds exactly on strings matching `^\d{4}-W\d{2}$`
(elsewhere it throws, modelled as `none`). -/
theorem claim_C9_theorem :
    (∀ year week : ℕ, 1000 ≤ year → year ≤ 9999 → 1 ≤ week → week ≤ 53 →
      parseWeekKey (getWeekKey year week) = some (year, week)) ∧
    (∀ s : String, (parseWeekKey s).isSome = weekKeyMatches s) := by
  constructor
  · intro y w h1 h2 h3 h4
    have c1 : isDigitCh (digitChar10 (y / 1000)) = true :=
      isDigitCh_digitChar10 _ (by omega)
    have c2 : isDigitCh (digitChar10 (y / 100 % 10)) = true :=
      isDigitCh_digitChar10 _ (by omega)
    have c3 : isDigitCh (digitChar10 (y / 10 % 10)) = true :=
      isDigitCh_digitChar10 _ (by omega)
    have c4 : isDigitCh (digitChar10 (y % 10)) = true :=
      isDigitCh_digitChar10 _ (by omega)
    have d1 : digitVal (digitChar10 (y / 1000)) = y / 1000 :=
      digitVal_digitChar10 _ (by omega)
    have d2 : digitVal (digitChar10 (y / 100 % 10)) = y / 100 % 10 :=
      digitVal_digitChar10 _ (by omega)
    have d3 : digitVal (digitChar10 (y / 10 % 10)) = y / 10 % 10 :=
      digitVal_digitChar10 _ (by omega)
    have d4 : digitVal (digitChar10 (y % 10)) = y % 10 :=
      digitVal_digitChar10 _ (by omega)
    by_cases hw : w < 10
    · unfold parseWeekKey
      rw [getWeekKey_toList_small y w h1 h2 hw]
      dsimp only
      have cw : isDigitCh (digitChar10 w) = true := isDigitCh_digitChar10 _ hw
      have dw : digitVal (digitChar10 w) = w := digitVal_digitChar10 _ hw
      have h0c : isDigitCh '0' = true := by decide
      have hcond : (isDigitCh (digitChar10 (y / 1000)) &&
          isDigitCh (digitChar10 (y / 100 % 10)) &&
          isDigitCh (digitChar10 (y / 10 % 10)) && isDigitCh (digitChar10 (y % 10)) &&
          (('-' : Char) == '-') && (('W' : Char) == 'W') && isDigitCh '0' &&
          isDigitCh (digitChar10 w)) = true := by
        simp [c1, c2, c3, c4, cw, h0c]
      rw [if_pos hcond]
      simp only [d1, d2, d3, d4, dw, Option.some_inj, Prod.mk.injEq]
      constructor
      · omega
      · have h0 : digitVal '0' = 0 := by decide
        rw [h0]
        omega
    · unfold parseWeekKey
      rw [getWeekKey_toList_two y w h1 h2 (by omega) (by omega)]
      dsimp only
      have cw1 : isDigitCh (digitChar10 (w / 10)) = true :=
        isDigitCh_digitChar10 _ (by omega)
      have cw2 : isDigitCh (digitChar10 (w % 10)) = true :=
        isDigitCh_digitChar10 _ (by omega)
      have dw1 : digitVal (digitChar10 (w / 10)) = w / 10 :=
        digitVal_digitChar10 _ (by omega)
      have dw2 : digitVal (digitChar10 (w % 10)) = w % 10 :=
        digitVal_digitChar10 _ (by omega)
      have hcond : (isDigitCh (digitChar10 (y / 1000)) &&
          isDigitCh (digitChar10 (y / 100 % 10)) &&
          isDigitCh (digitChar10 (y / 10 % 10)) && isDigitCh (digitChar10 (y % 10)) &&
          (('-' : Char) == '-') && (('W' : Char) == 'W') &&
          isDigitCh (digitChar10 (w / 10)) && isDigitCh (digitChar10 (w % 10))) = true := by
        simp [c1, c2, c3, c4, cw1, cw2]
      rw [if_pos hcond]
      simp only [d1, d2, d3, d4, dw1, dw2, Option.some_inj, Prod.mk.injEq]
      constructor
      · omega
      · omega
  · intro s
    unfold parseWeekKey weekKeyMatches
    rcases hl : s.toList with _ | ⟨a, _ | ⟨b, _ | ⟨c, _ | ⟨d, _ | ⟨e5, _ | ⟨e6,
      _ | ⟨e7, _ | ⟨e8, _ | ⟨e9, t⟩⟩⟩⟩⟩⟩⟩⟩⟩ <;>
      (try rfl)
    · rw [isSome_ite_some]
      simp only [List.length_cons, List.length_nil]
      simp only [List.take, List.all_cons, List.all_nil, List.getD, List.get?]
      simp only [Bool.and_true, Bool.true_and]
      cases hA : isDigitCh a <;> cases hB : isDigitCh b <;> cases hC : isDigitCh c <;>
        cases hD : isDigitCh d <;> cases hE5 : (e5 == '-') <;> cases hE6 : (e6 == 'W') <;>
          cases hE7 : isDigitCh e7 <;> cases hE8 : isDigitCh e8 <;>
            simp [hA, hB, hC, hD, hE5, hE6, hE7, hE8]

/-- Witness for C9 at `(2026, 5)`: the key is `2026-W05` and parses back. -/
theorem claim_C9_witness : parseWeekKey (getWeekKey 2026 5) = some (2026, 5) :=
  claim_C9_theorem.1 2026 5 (by norm_num) (by norm_num) (by norm_num) (by norm_num)

/- ### Claim C10 -/

theorem day_nonempty_after_addEntry (m : EMap) (dk : String) (e : TimeEntry) :
    getEntriesForDate (addEntry m dk e) dk ≠ [] := by
  rw [getEntriesForDate_addEntry_self]
  simp

theorem day_nonempty_addEntry (m : EMap) (k dk : String) (e : TimeEntry)
    (h : getEntriesForDate m dk ≠ []) :
    getEntriesForDate (addEntry m k e) dk ≠ [] := by
  by_cases hk : dk = k
  · subst hk
    exact day_nonempty_after_addEntry m dk e
  · rw [getEntriesForDate_addEntry_ne m k dk e hk]
    exact h

theorem emGet_of_day_nonempty (m : EMap) (dk : String)
    (h : getEntriesForDate m dk ≠ []) :
    ∃ l, emGet m dk = some l ∧ l ≠ [] := by
  cases hg : emGet m dk with
  | none =>
    exfalso
    apply h
    unfold getEntriesForDate
    rw [hg]
    rfl
  | some l =>
    refine ⟨l, rfl, ?_⟩
    unfold getEntriesForDate at h
    rw [hg] at h
    simpa using h

theorem day_nonempty_foldl_addEntry (es : List EntryData) (k dk : String) :
    ∀ m : EMap, getEntriesForDate m dk ≠ [] →
      getEntriesForDate
        (es.foldl (fun a ed => addEntry a k (TimeEntry.ofData ed)) m) dk ≠ [] := by
  induction es with
  | nil =>
    intro m h
    exact h
  | cons ed rest ih =>
    intro m h
    exact ih _ (day_nonempty_addEntry m k dk _ h)

theorem day_nonempty_loadFromJSON_mono (data : List (String × List EntryData))
    (dk : String) :
    ∀ m : EMap, getEntriesForDate m dk ≠ [] →
      getEntriesForDate (loadFromJSON m data) dk ≠ [] := by
  induction data with
  | nil =>
    intro m h
    exact h
  | cons p ps ih =>
    intro m h
    exact ih _ (day_nonempty_foldl_addEntry p.2 p.1 dk m h)

theorem day_nonempty_loadFromJSON (data : List (String × List EntryData))
    (dk : String) (l : List EntryData) :
    ∀ m : EMap, (dk, l) ∈ data → l ≠ [] →
      getEntriesForDate (loadFromJSON m data) dk ≠ [] := by
  induction data with
  | nil =>
    intro m h _
    simp at h
  | cons p ps ih =>
    intro m hmem hne
    rcases List.mem_cons.mp hmem with hhead | htail
    · rcases hhead.symm with rfl
      have h1 : getEntriesForDate
          (l.foldl (fun a ed => addEntry a dk (TimeEntry.ofData ed)) m) dk ≠ [] := by
        cases l with
        | nil => exact absurd rfl hne
        | cons ed rest =>
          exact day_nonempty_foldl_addEntry rest dk dk _
            (day_nonempty_after_addEntry m dk (TimeEntry.ofData ed))
      exact day_nonempty_loadFromJSON_mono ps dk _ h1
    · exact ih _ htail hne

/-- Claim C10: `addEntry` creates any date key on demand — weekend or
out-of-week strings included, with no validation whatsoever — and the key
then shows up in `getWorkDates` and in the `toJSON` serialization;
`loadFromJSON` reconstitutes such dates the same way. -/
theorem claim_C10_theorem (m : EMap) (dk : String) (e : TimeEntry) :
    (emGet (addEntry m dk e) dk).isSome = true ∧
    dk ∈ getWorkDates (addEntry m dk e) ∧
    dk ∈ (weekToJSON (addEntry m dk e)).map (fun p => p.1) ∧
    (∀ (data : List (String × List EntryData)) (m0 : EMap) (l : List EntryData),
      (dk, l) ∈ data → l ≠ [] →
      dk ∈ getWorkDates (loadFromJSON m0 data) ∧
      dk ∈ (weekToJSON (loadFromJSON m0 data)).map (fun p => p.1)) := by
  refine ⟨emGet_addEntry_isSome m dk e,
    mem_getWorkDates_of_isSome _ dk (emGet_addEntry_isSome m dk e), ?_, ?_⟩
  · obtain ⟨l, hl, hlne⟩ :=
      emGet_of_day_nonempty _ dk (day_nonempty_after_addEntry m dk e)
    exact mem_weekToJSON_of_nonempty _ dk l hl hlne
  · intro data m0 l hmem hne
    have hday := day_nonempty_loadFromJSON data dk l m0 hmem hne
    obtain ⟨l2, hl2, hl2ne⟩ := emGet_of_day_nonempty _ dk hday
    exact ⟨mem_getWorkDates_of_isSome _ dk (by simp [hl2]),
      mem_weekToJSON_of_nonempty _ dk l2 hl2 hl2ne⟩

/-- Witness for C10 on the Saturday `2026-02-07` (a weekend date outside the
work week): added directly and reloaded from JSON, it is present. -/
theorem claim_C10_witness :
    jsDayOfWeek 2026 2 7 = 6 ∧
    (emGet
      (addEntry ([] : EMap) ("2026-02-07")
        (TimeEntry.ofData { type := ("entrata"), time := some ("08:00") }))
      ("2026-02-07")).isSome = true ∧
    ("2026-02-07") ∈ getWorkDates
      (loadFromJSON ([] : EMap)
        [(("2026-02-07"), [{ type := ("entrata"), time := some ("08:00") }])]) := by
  refine ⟨by decide, ?_, ?_⟩
  · exact (claim_C10_theorem ([] : EMap) ("2026-02-07")
      (TimeEntry.ofData { type := ("entrata"), time := some ("08:00") })).1
  · exact ((claim_C10_theorem ([] : EMap) ("2026-02-07")
      (TimeEntry.ofData { type := ("entrata"), time := some ("08:00") })).2.2.2
      [(("2026-02-07"), [{ type := ("entrata"), time := some ("08:00") }])]
      ([] : EMap) [{ type := ("entrata"), time := some ("08:00") }]
      (by simp) (by simp)).1
